import Mathlib

/-!
Verification of the article lifecycle pipeline of the `feed` repository.

The Python sources are shallowly embedded as pure Lean functions:

* `mongodb_client.py` — the article store becomes a `List Article`
  (`DB`); queries and partial updates become list operations.
* `llm_filter.py` (`_extract_json_from_content`) — brace-counting JSON
  extraction over `List Char`.
* `process_category.py` (`_process_single_item`,
  `_process_category_batch`, `process_pending_articles_round_robin`) —
  analysis routing, batch processing with the high-quality counter and
  publish trigger, and the round-robin scheduler.
* `update_feed.py` (`add_item`, `main`) — the feed publisher; the feed
  document becomes a `List FeedItem` keyed by `guid`.
* `process_categories_runner.py` (`reconcile_processed_articles`) — the
  reconciler.

Relevance scores (Python floats compared with `>=`/`<`) are embedded as
rationals; millisecond timestamps as naturals.  The LLM provider and the
content analyzer are external collaborators and enter the model as
oracle arguments; an oracle answer of `none` models an exception raised
by the collaborator call.
-/

set_option autoImplicit false

namespace Feed

/-- Opening brace character, written via its code point. -/
def lbrace : Char := Char.ofNat 123

/-- Closing brace character, written via its code point. -/
def rbrace : Char := Char.ofNat 125

/-! ### Data model (`mongodb_client.py` status constants, article records) -/

/-- Processing status constants from `MongoDBClient`. -/
inductive Status where
  | pending
  | processed
  | filtered_out
  | published
deriving DecidableEq

/-- Relevant part of the `llm_analysis` sub-record: the relevance score and
the optional filter reason.  `filtered_reason` is an optional string; the
Python code tests it with truthiness, so an empty string behaves like an
absent reason. -/
structure LlmAnalysis where
  relevance_score : ℚ
  filtered_reason : Option String
deriving DecidableEq

/-- An article record as stored in the `feed_items` collection, restricted
to the fields the lifecycle pipeline reads and writes.  `published_to_feed`
is `none` when the field is absent from the document. -/
structure Article where
  id : String
  category : String
  published : Nat
  crawled : Nat
  processing_status : Status
  llm_analysis : Option LlmAnalysis
  published_to_feed : Option Bool
deriving DecidableEq

/-- The article store: the `feed_items` collection as a list of documents. -/
abbrev DB := List Article

/-! ### Store operations (`mongodb_client.py`) -/

/-- Embeds `MongoDBClient.get_item`: `find_one({"id": item_id})`. -/
def get_item (db : DB) (item_id : String) : Option Article :=
  db.find? (fun a => a.id == item_id)

/-- Embeds `MongoDBClient.item_exists`: `count_documents({"id": item_id}) > 0`. -/
def item_exists (db : DB) (item_id : String) : Bool :=
  db.any (fun a => a.id == item_id)

/-- Embeds `MongoDBClient.update_item`: `update_one({"id": item_id}, {"$set": ...})`.
The partial update is represented by the field transformer `f`. -/
def update_item (db : DB) (item_id : String) (f : Article → Article) : DB :=
  db.map (fun a => if a.id == item_id then f a else a)

/-- Field update performed by `MongoDBClient.update_item_status`: set
`processing_status`, and additionally set `published_to_feed = true` when
the new status is `published`. -/
def set_status (status : Status) (a : Article) : Article :=
  let a' := { a with processing_status := status }
  if status = Status.published then { a' with published_to_feed := some true } else a'

/-- Embeds `MongoDBClient.update_item_status`. -/
def update_item_status (db : DB) (item_id : String) (status : Status) : DB :=
  update_item db item_id (set_status status)

/-- Query predicate of `MongoDBClient.get_filtered_items`: status in
`{processed, filtered_out}`, `llm_analysis.relevance_score >= min_score`,
and `published_to_feed` absent or false, with an optional category filter. -/
def matches_filtered_query (min_score : ℚ) (category : Option String) (a : Article) : Bool :=
  (a.processing_status == Status.processed || a.processing_status == Status.filtered_out) &&
  (match a.llm_analysis with
   | some la => decide (min_score ≤ la.relevance_score)
   | none => false) &&
  (a.published_to_feed == none || a.published_to_feed == some false) &&
  (match category with
   | some c => a.category == c
   | none => true)

/-- Comparison used by the store's `sort("published", ASCENDING)`. -/
def published_le (a b : Article) : Bool :=
  a.published ≤ b.published

/-- Insert an article into a list sorted by ascending `published` time. -/
def insert_by_published (a : Article) : List Article → List Article
  | [] => [a]
  | b :: rest =>
    if published_le a b then a :: b :: rest else b :: insert_by_published a rest

/-- Stable sort by ascending `published` time, embedding the store's
`sort("published", ASCENDING)`. -/
def sort_by_published : List Article → List Article
  | [] => []
  | a :: rest => insert_by_published a (sort_by_published rest)

/-- Embeds `MongoDBClient.get_filtered_items`: filter, sort by `published`
ascending, and cap at `limit` (the Python default is `limit=100`). -/
def get_filtered_items (db : DB) (min_score : ℚ) (limit : Nat)
    (category : Option String) : List Article :=
  ((sort_by_published (db.filter (matches_filtered_query min_score category))).take limit)

/-- Status filter used by `MongoDBClient.get_items_by_status` with an
optional category. -/
def matches_status_query (status : Status) (category : Option String) (a : Article) : Bool :=
  a.processing_status == status &&
  (match category with
   | some c => a.category == c
   | none => true)

/-- Embeds `MongoDBClient.get_items_by_status`: filter by status and
category, sort by `published` ascending, optional limit. -/
def get_items_by_status (db : DB) (status : Status) (category : Option String)
    (limit : Option Nat) : List Article :=
  let sorted := sort_by_published (db.filter (matches_status_query status category))
  match limit with
  | some n => sorted.take n
  | none => sorted

/-! ### JSON response extraction (`llm_filter.py`, `_extract_json_from_content`) -/

/-- Failure modes of `_extract_json_from_content` (each is a `ValueError`
with a distinct message in the source). -/
inductive ExtractError where
  | noJsonFound
  | unbalancedBraces
  | emptyJsonExtracted
deriving DecidableEq

/-- Embeds Python `str.strip()`: drop whitespace from both ends. -/
def stripChars (s : List Char) : List Char :=
  ((s.dropWhile Char.isWhitespace).reverse.dropWhile Char.isWhitespace).reverse

/-- Embeds the brace-counting loop of `_extract_json_from_content`: walk the
characters accumulating them, incrementing the count on an opening brace and
decrementing on a closing brace; return the accumulated characters when the
count first returns to zero, or `none` when the characters run out first
(`brace_count != 0` in the source). -/
def brace_scan : List Char → Int → List Char → Option (List Char)
  | [], _, _ => none
  | c :: rest, count, acc =>
    if c = lbrace then
      brace_scan rest (count + 1) (acc ++ [c])
    else if c = rbrace then
      if count - 1 = 0 then some (acc ++ [c])
      else brace_scan rest (count - 1) (acc ++ [c])
    else
      brace_scan rest count (acc ++ [c])

/-- Embeds `_extract_json_from_content` on character lists: strip the
content, locate the first opening brace (`NoJsonFound` when there is none),
run the brace-counting scan (`UnbalancedBraces` when the depth never
returns to zero), and reject an extraction that strips to nothing. -/
def extract_json_from_content (content : List Char) : Except ExtractError (List Char) :=
  let stripped := stripChars content
  let tail := stripped.dropWhile (fun c => c ≠ lbrace)
  if tail.isEmpty then Except.error ExtractError.noJsonFound
  else
    match brace_scan tail 0 [] with
    | none => Except.error ExtractError.unbalancedBraces
    | some extracted =>
      if (stripChars extracted).isEmpty then Except.error ExtractError.emptyJsonExtracted
      else Except.ok extracted

/-! ### Feed publisher (`update_feed.py`) -/

/-- A feed-document item, restricted to its identity: the `guid` element,
which `add_item` sets to the article's `id` and uses as the sole
deduplication key. -/
structure FeedItem where
  guid : String
deriving DecidableEq

/-- The rendered feed document: the ordered `item` children of the channel. -/
abbrev FeedDoc := List FeedItem

/-- Embeds `update_feed.add_item`: skip when an item with the same `guid`
already exists in the channel, otherwise append a new item whose `guid` is
the article's `id`.  Returns the channel and whether an item was added. -/
def add_item (channel : FeedDoc) (article : Article) : FeedDoc × Bool :=
  if channel.any (fun it => it.guid == article.id) then (channel, false)
  else (channel ++ [{ guid := article.id }], true)

/-- State threaded through the publisher's loop over candidate articles. -/
structure PublishState where
  db : DB
  feed : FeedDoc
  articles_added : Nat
deriving DecidableEq

/-- Loop body of `update_feed.main`: try to add the article; on success mark
the source record `published` (which also sets `published_to_feed = true`)
and count the addition; on a duplicate-guid skip, write nothing. -/
def publish_step (st : PublishState) (article : Article) : PublishState :=
  let r := add_item st.feed article
  if r.2 then
    { db := update_item_status st.db article.id Status.published
      feed := r.1
      articles_added := st.articles_added + 1 }
  else
    { st with feed := r.1 }

/-- Candidate query of `update_feed.main`: `get_filtered_items(min_score=0.6)`
with no category filter and the store's default `limit=100`. -/
def update_feed_candidates (db : DB) : List Article :=
  get_filtered_items db (mkRat 3 5) 100 none

/-- Embeds `update_feed.main`: query the candidates once, then run the
add/mark loop over them. -/
def update_feed_main (db : DB) (feed : FeedDoc) : PublishState :=
  (update_feed_candidates db).foldl publish_step
    { db := db, feed := feed, articles_added := 0 }

/-! ### Single-article analysis (`process_category.py`, `_process_single_item`) -/

/-- Truthiness test `if llm_analysis.get("filtered_reason"):` — an absent or
empty reason string is falsy in Python. -/
def reason_present (r : Option String) : Bool :=
  match r with
  | some s => !s.isEmpty
  | none => false

/-- Embeds `_process_single_item`.  `existing` is the record fetched by
`get_item`; when it exists and already carries `llm_analysis` the item is
skipped (`none`).  Otherwise the item receives the analysis and status
`processed`; a truthy `filtered_reason` switches the status to
`filtered_out` with quality result `0`; else a relevance score at or above
the category threshold yields quality result `1`, and a lower score yields
`0` (with the status left at `processed`). -/
def process_single_item (item : Article) (existing : Option Article)
    (llm : LlmAnalysis) (quality_threshold : ℚ) : Option (Article × Nat) :=
  if (match existing with
      | some e => e.llm_analysis.isSome
      | none => false) then
    none
  else
    let item' := { item with
      llm_analysis := some llm
      processing_status := Status.processed }
    if reason_present llm.filtered_reason then
      some ({ item' with processing_status := Status.filtered_out }, 0)
    else if quality_threshold ≤ llm.relevance_score then
      some (item', 1)
    else
      some (item', 0)

/-! ### Category batch (`process_category.py`, `_process_category_batch`)

The LLM/content analysis is an external collaborator; it enters the batch
as an oracle `llm : Article → Option LlmAnalysis`, where `none` models an
exception raised anywhere in the fetch/analyze/store attempt for that one
article (the `except` branch of the per-article `try`), so that no update
is written for it.
-/

/-- Field update persisted after a completed analysis: the `$set` of the
analyzed fields and the new status performed by `update_item`. -/
def analysis_update (qr : Article × Nat) (a : Article) : Article :=
  { a with
    llm_analysis := qr.1.llm_analysis
    processing_status := qr.1.processing_status }

/-- Per-category mutable context of `_initialize_category_components`. -/
structure BatchComponents where
  quality_threshold : ℚ
  high_quality_target : Nat
  high_quality_count : Nat
deriving DecidableEq

/-- Per-category statistics row of `category_stats`. -/
structure CategoryStats where
  processed : Nat
  high_quality : Nat
  filtered : Nat
deriving DecidableEq

/-- State threaded through a category batch.  `publish_runs` counts the
`update_feed.main()` invocations made by the high-quality trigger, and
`quality_log` records, per article advanced, whether it counted as high
quality — both are observations of the control flow, not stored data. -/
structure BatchState where
  db : DB
  feed : FeedDoc
  comp : BatchComponents
  stats : CategoryStats
  articles_processed : Nat
  publish_runs : Nat
  quality_log : List Bool
deriving DecidableEq

/-- Loop body of `_process_category_batch` for one pending item: analyze,
persist the new fields and status, update the statistics, and on a
high-quality result bump the counter; when the counter reaches the target,
run the publisher and reset the counter to zero. -/
def batch_item_step (llm : Article → Option LlmAnalysis) (st : BatchState)
    (item : Article) : BatchState :=
  match llm item with
  | none => st
  | some analysis =>
    match process_single_item item (get_item st.db item.id) analysis
        st.comp.quality_threshold with
    | none => st
    | some qr =>
      let db := update_item st.db item.id (analysis_update qr)
      if qr.2 = 1 then
        let comp : BatchComponents :=
          { st.comp with high_quality_count := st.comp.high_quality_count + 1 }
        let stats : CategoryStats := { st.stats with
          processed := st.stats.processed + 1
          high_quality := st.stats.high_quality + 1 }
        if comp.high_quality_target ≤ comp.high_quality_count then
          let r := update_feed_main db st.feed
          { db := r.db
            feed := r.feed
            comp := { comp with high_quality_count := 0 }
            stats := stats
            articles_processed := st.articles_processed + 1
            publish_runs := st.publish_runs + 1
            quality_log := st.quality_log ++ [true] }
        else
          { db := db
            feed := st.feed
            comp := comp
            stats := stats
            articles_processed := st.articles_processed + 1
            publish_runs := st.publish_runs
            quality_log := st.quality_log ++ [true] }
      else
        { db := db
          feed := st.feed
          comp := st.comp
          stats := { st.stats with
            processed := st.stats.processed + 1
            filtered := st.stats.filtered + 1 }
          articles_processed := st.articles_processed + 1
          publish_runs := st.publish_runs
          quality_log := st.quality_log ++ [false] }

/-- Embeds `_process_category_batch`: query up to `batch_size` pending
articles of the category and fold the per-item step over them. -/
def process_category_batch (db : DB) (feed : FeedDoc) (category_key : String)
    (comp : BatchComponents) (stats : CategoryStats) (batch_size : Nat)
    (llm : Article → Option LlmAnalysis) : BatchState :=
  (get_items_by_status db Status.pending (some category_key) (some batch_size)).foldl
    (batch_item_step llm)
    { db := db, feed := feed, comp := comp, stats := stats
      articles_processed := 0, publish_runs := 0, quality_log := [] }

/-! ### Round-robin scheduler (`process_pending_articles_round_robin`) -/

/-- Scheduler state: the store, the feed document, and the per-category
components and statistics.  A category mapped to `none` failed component
initialization and is skipped by every round, exactly like a key missing
from `category_components`. -/
structure RRState where
  db : DB
  feed : FeedDoc
  components : String → Option BatchComponents
  stats : String → CategoryStats

/-- Round body for one category: skip it when it has no components,
otherwise run one batch and fold its results back into the state, adding
the batch's advanced-article count to the round total. -/
def rr_category_step (llm : Article → Option LlmAnalysis) (batch_size : Nat)
    (acc : RRState × Nat) (category_key : String) : RRState × Nat :=
  match acc.1.components category_key with
  | none => acc
  | some comp =>
    let b := process_category_batch acc.1.db acc.1.feed category_key comp
      (acc.1.stats category_key) batch_size llm
    ({ db := b.db
       feed := b.feed
       components := fun c => if c = category_key then some b.comp else acc.1.components c
       stats := fun c => if c = category_key then b.stats else acc.1.stats c },
     acc.2 + b.articles_processed)

/-- One full round: offer every category in the configured list, in list
order, one batch; return the new state and the round's total advanced. -/
def rr_round (categories : List String) (llm : Article → Option LlmAnalysis)
    (batch_size : Nat) (st : RRState) : RRState × Nat :=
  categories.foldl (rr_category_step llm batch_size) (st, 0)

/-- The `while True` scheduling loop, with explicit fuel: run a round; stop
when it advanced zero articles, otherwise continue. -/
def rr_loop (llm : Article → Option LlmAnalysis) (batch_size : Nat)
    (categories : List String) : Nat → RRState → RRState
  | 0, st => st
  | fuel + 1, st =>
    let r := rr_round categories llm batch_size st
    if r.2 = 0 then r.1
    else rr_loop llm batch_size categories fuel r.1

/-- Embeds `process_pending_articles_round_robin`: the loop with the fixed
batch size of 5 articles per category per round. -/
def process_pending_articles_round_robin (llm : Article → Option LlmAnalysis)
    (categories : List String) (fuel : Nat) (st : RRState) : RRState :=
  rr_loop llm 5 categories fuel st

/-! ### Ingestion (`fetch_category_articles` inner loop) -/

/-- Embeds the per-item body of `fetch_category_articles`: skip an item
whose `id` is already stored, otherwise stamp the category and
`processing_status = pending` and insert it. -/
def ingest_item (db : DB) (item : Article) (category_key : String) : DB :=
  if item_exists db item.id then db
  else db ++ [{ item with
    category := category_key
    processing_status := Status.pending }]

/-! ### Reconciler (`process_categories_runner.py`) -/

/-- Trailing-window test of `_get_processed_articles`: either the original
publish time or the crawl time falls inside `[startMs, endMs)`. -/
def in_window (startMs endMs : Nat) (a : Article) : Bool :=
  (decide (startMs ≤ a.published) && decide (a.published < endMs)) ||
  (decide (startMs ≤ a.crawled) && decide (a.crawled < endMs))

/-- Query predicate of `_get_processed_articles`: status in
`{processed, published}`, score at or above `min_score`, and inside the
trailing window. -/
def matches_reconcile_query (min_score : ℚ) (startMs endMs : Nat) (a : Article) : Bool :=
  (a.processing_status == Status.processed || a.processing_status == Status.published) &&
  (match a.llm_analysis with
   | some la => decide (min_score ≤ la.relevance_score)
   | none => false) &&
  in_window startMs endMs a

/-- Embeds `_get_processed_articles`. -/
def get_processed_articles (db : DB) (startMs endMs : Nat) (min_score : ℚ) : List Article :=
  db.filter (matches_reconcile_query min_score startMs endMs)

/-- Embeds `_get_xml_article_ids`: the `guid`s present in the feed document
(a missing or unparseable document is the empty list). -/
def xml_article_ids (feed : FeedDoc) : List String :=
  feed.map (fun it => it.guid)

/-- Embeds `_find_missing_articles`: the processed articles whose `id` is
absent from the feed document. -/
def find_missing_articles (processed : List Article) (xml_ids : List String) :
    List Article :=
  processed.filter (fun a => !(xml_ids.contains a.id))

/-- Repair write of the reconciler: `update_many({"id": {"$in": ids}},
{"$unset": {"published_to_feed": ""}})`. -/
def unset_published_to_feed (db : DB) (ids : List String) : DB :=
  db.map (fun a =>
    if ids.contains a.id then { a with published_to_feed := none } else a)

/-- Embeds `reconcile_processed_articles`: compute the repair set; when it
is non-empty, strip `published_to_feed` from exactly that set and invoke
the publisher; otherwise perform no writes. -/
def reconcile_processed_articles (db : DB) (feed : FeedDoc)
    (startMs endMs : Nat) (min_score : ℚ) : DB × FeedDoc :=
  let processed := get_processed_articles db startMs endMs min_score
  if processed.isEmpty then (db, feed)
  else
    let missing := find_missing_articles processed (xml_article_ids feed)
    if missing.isEmpty then (db, feed)
    else
      let r := update_feed_main
        (unset_published_to_feed db (missing.map (fun a => a.id))) feed
      (r.db, r.feed)

/-! ### Publish trigger of step 3 (`_publish_unpublished_articles_step`) -/

/-- Embeds `_publish_unpublished_articles_step`: query the store with the
per-category `quality_threshold` and category filter; when the result is
non-empty, run `update_feed.main` (whose own candidate query is
independent of both parameters). -/
def publish_unpublished_articles_step (db : DB) (feed : FeedDoc)
    (quality_threshold : ℚ) (category_key : Option String) : DB × FeedDoc :=
  if (get_filtered_items db quality_threshold 100 category_key).isEmpty then (db, feed)
  else
    let r := update_feed_main db feed
    (r.db, r.feed)

/-! ### Pipeline operations (for the lifecycle state machine) -/

/-- One pipeline operation on the shared state (store and feed document):
ingestion of one raw item, analysis of one item, a publisher run, or a
reconciliation run. -/
inductive PipelineOp where
  | ingest (item : Article) (category_key : String)
  | analyze (item : Article) (llm : Option LlmAnalysis) (quality_threshold : ℚ)
  | publish
  | reconcile (startMs endMs : Nat) (min_score : ℚ)

/-- Store effect of one analysis attempt: an oracle failure (`none`) or a
skip writes nothing; otherwise the analyzed fields and the new status are
persisted with `update_item`. -/
def analyze_op (db : DB) (item : Article) (llm : Option LlmAnalysis)
    (quality_threshold : ℚ) : DB :=
  match llm with
  | none => db
  | some analysis =>
    match process_single_item item (get_item db item.id) analysis quality_threshold with
    | none => db
    | some qr =>
      update_item db item.id (analysis_update qr)

/-- Transition function of the pipeline state machine. -/
def pipeline_step (st : DB × FeedDoc) (op : PipelineOp) : DB × FeedDoc :=
  match op with
  | PipelineOp.ingest item cat => (ingest_item st.1 item cat, st.2)
  | PipelineOp.analyze item llm t => (analyze_op st.1 item llm t, st.2)
  | PipelineOp.publish =>
    let r := update_feed_main st.1 st.2
    (r.db, r.feed)
  | PipelineOp.reconcile s e m => reconcile_processed_articles st.1 st.2 s e m

/-- Run a sequence of pipeline operations. -/
def pipeline_run (st : DB × FeedDoc) (ops : List PipelineOp) : DB × FeedDoc :=
  ops.foldl pipeline_step st

/-! ### Helper lemmas about the store embedding -/

theorem insert_by_published_perm (a : Article) (l : List Article) :
    (insert_by_published a l).Perm (a :: l) := by
  induction l with
  | nil => simp [insert_by_published]
  | cons b rest ih =>
    simp only [insert_by_published]
    split
    · exact List.Perm.refl _
    · exact (ih.cons b).trans (List.Perm.swap a b rest)

theorem sort_by_published_perm (l : List Article) : (sort_by_published l).Perm l := by
  induction l with
  | nil => exact List.Perm.refl _
  | cons a rest ih =>
    exact (insert_by_published_perm a (sort_by_published rest)).trans (ih.cons a)

theorem mem_get_filtered_items {db : DB} {m : ℚ} {lim : Nat} {cat : Option String}
    {a : Article} (h : a ∈ get_filtered_items db m lim cat) :
    a ∈ db ∧ matches_filtered_query m cat a = true := by
  have h1 : a ∈ sort_by_published (db.filter (matches_filtered_query m cat)) :=
    List.mem_of_mem_take h
  have h2 : a ∈ db.filter (matches_filtered_query m cat) :=
    (sort_by_published_perm _).mem_iff.mp h1
  exact ⟨(List.mem_filter.mp h2).1, (List.mem_filter.mp h2).2⟩

theorem get_filtered_items_complete {db : DB} {m : ℚ} {lim : Nat} {cat : Option String}
    {a : Article} (hcap : (db.filter (matches_filtered_query m cat)).length ≤ lim)
    (ha : a ∈ db) (hm : matches_filtered_query m cat a = true) :
    a ∈ get_filtered_items db m lim cat := by
  have hmem : a ∈ db.filter (matches_filtered_query m cat) := List.mem_filter.mpr ⟨ha, hm⟩
  have hperm := sort_by_published_perm (db.filter (matches_filtered_query m cat))
  have hlen : (sort_by_published (db.filter (matches_filtered_query m cat))).length ≤ lim := by
    rw [hperm.length_eq]; exact hcap
  rw [get_filtered_items, List.take_of_length_le hlen]
  exact hperm.mem_iff.mpr hmem

theorem get_item_map (db : DB) (h : Article → Article) (hid : ∀ a, (h a).id = a.id)
    (i : String) : get_item (db.map h) i = (get_item db i).map h := by
  induction db with
  | nil => rfl
  | cons a rest ih =>
    by_cases hc : a.id == i
    · have hc' : ((h a).id == i) = true := by rw [hid a]; exact hc
      simp [get_item, List.find?_cons_of_pos, hc, hc']
    · have hc' : ((h a).id == i) = false := by
        rw [hid a]; exact Bool.of_not_eq_true hc
      simp only [List.map_cons]
      rw [get_item, List.find?_cons_of_neg _ (by simp [hc']),
        show (get_item (a :: rest) i) = List.find? (fun x => x.id == i) rest by
          rw [get_item, List.find?_cons_of_neg _ (by simp at hc ⊢; exact hc)]]
      exact ih

theorem get_item_update_item (db : DB) (i j : String) (f : Article → Article)
    (hf : ∀ a, (f a).id = a.id) :
    get_item (update_item db i f) j
      = (get_item db j).map (fun a => if a.id == i then f a else a) := by
  refine get_item_map db _ (fun a => ?_) j
  by_cases hc : a.id == i <;> simp [hc, hf a]

theorem get_item_id {db : DB} {i : String} {a : Article}
    (h : get_item db i = some a) : a.id = i := by
  have := List.find?_some h
  simpa using this

theorem get_item_update_item_self (db : DB) (i : String) (f : Article → Article)
    (hf : ∀ a, (f a).id = a.id) :
    get_item (update_item db i f) i = (get_item db i).map f := by
  rw [get_item_update_item db i i f hf]
  cases h : get_item db i with
  | none => rfl
  | some a =>
    simp [get_item_id h]

theorem get_item_update_item_other (db : DB) (i j : String) (f : Article → Article)
    (hf : ∀ a, (f a).id = a.id) (hne : j ≠ i) :
    get_item (update_item db i f) j = get_item db j := by
  rw [get_item_update_item db i j f hf]
  cases h : get_item db j with
  | none => rfl
  | some a =>
    have hni : a.id ≠ i := by rw [get_item_id h]; exact hne
    simp [hni]

theorem update_item_map_id (db : DB) (i : String) (f : Article → Article)
    (hf : ∀ a, (f a).id = a.id) :
    (update_item db i f).map (fun a => a.id) = db.map (fun a => a.id) := by
  rw [update_item, List.map_map]
  refine List.map_congr_left (fun a _ => ?_)
  by_cases hc : a.id = i <;> simp [hc, hf a]

theorem set_status_id (s : Status) (a : Article) : (set_status s a).id = a.id := by
  unfold set_status
  split <;> rfl

theorem set_status_status (s : Status) (a : Article) :
    (set_status s a).processing_status = s := by
  unfold set_status
  split <;> rfl

theorem get_item_update_item_status_other (db : DB) (i j : String) (s : Status)
    (hne : j ≠ i) : get_item (update_item_status db i s) j = get_item db j :=
  get_item_update_item_other db i j (set_status s) (set_status_id s) hne

theorem update_item_status_map_id (db : DB) (i : String) (s : Status) :
    (update_item_status db i s).map (fun a => a.id) = db.map (fun a => a.id) :=
  update_item_map_id db i (set_status s) (set_status_id s)

theorem get_item_of_mem_nodup {db : DB} (hnodup : (db.map (fun a => a.id)).Nodup)
    {a : Article} (ha : a ∈ db) : get_item db a.id = some a := by
  induction db with
  | nil => cases ha
  | cons b rest ih =>
    rcases List.mem_cons.mp ha with rfl | hmem
    · simp [get_item, List.find?_cons_of_pos]
    · have hnr : (rest.map (fun a => a.id)).Nodup := (List.nodup_cons.mp hnodup).2
      have hbna : b.id ∉ rest.map (fun a => a.id) := (List.nodup_cons.mp hnodup).1
      have hne : (b.id == a.id) = false := by
        simp only [beq_eq_false_iff_ne, ne_eq]
        intro hba
        exact hbna (hba ▸ List.mem_map_of_mem (fun a => a.id) hmem)
      rw [get_item, List.find?_cons_of_neg _ (by simp at hne ⊢; exact hne)]
      exact ih hnr hmem

/-! ### Helper lemmas about the publisher loop -/

theorem feed_guid_mem (feed : FeedDoc) (g : String) :
    (feed.any (fun it => it.guid == g)) = true ↔ g ∈ feed.map (fun it => it.guid) := by
  simp [List.any_eq_true, List.mem_map]

theorem publish_step_skip {st : PublishState} {a : Article}
    (h : a.id ∈ st.feed.map (fun it => it.guid)) : publish_step st a = st := by
  have hany := (feed_guid_mem st.feed a.id).mpr h
  simp [publish_step, add_item, hany]

theorem publish_step_db (st : PublishState) (b : Article) :
    (publish_step st b).db = st.db ∨
      (publish_step st b).db = update_item_status st.db b.id Status.published := by
  unfold publish_step add_item
  split
  · exact Or.inl rfl
  · exact Or.inr rfl

theorem publish_step_guid_mono {st : PublishState} {g : String} (b : Article)
    (h : g ∈ st.feed.map (fun it => it.guid)) :
    g ∈ (publish_step st b).feed.map (fun it => it.guid) := by
  by_cases hany : st.feed.any (fun it => it.guid == b.id) = true
  · simpa [publish_step, add_item, hany] using h
  · simp only [publish_step, add_item, hany]
    simp only [Bool.false_eq_true, if_false, if_true, List.map_append]
    exact List.mem_append_left _ h

theorem publish_step_adds_guid (st : PublishState) (b : Article) :
    b.id ∈ (publish_step st b).feed.map (fun it => it.guid) := by
  by_cases hany : st.feed.any (fun it => it.guid == b.id) = true
  · rw [publish_step_skip ((feed_guid_mem _ _).mp hany)]
    exact (feed_guid_mem _ _).mp hany
  · simp [publish_step, add_item, hany]

theorem publish_fold_guid_mono (cands : List Article) (st : PublishState) {g : String}
    (h : g ∈ st.feed.map (fun it => it.guid)) :
    g ∈ ((cands.foldl publish_step st).feed.map (fun it => it.guid)) := by
  induction cands generalizing st with
  | nil => exact h
  | cons c rest ih => exact ih _ (publish_step_guid_mono c h)

theorem publish_fold_adds {cands : List Article} {a : Article} (st : PublishState)
    (h : a ∈ cands) :
    a.id ∈ ((cands.foldl publish_step st).feed.map (fun it => it.guid)) := by
  induction cands generalizing st with
  | nil => cases h
  | cons c rest ih =>
    rcases List.mem_cons.mp h with rfl | hmem
    · exact publish_fold_guid_mono rest _ (publish_step_adds_guid st a)
    · exact ih _ hmem

theorem publish_step_nodup {st : PublishState}
    (h : (st.feed.map (fun it => it.guid)).Nodup) (b : Article) :
    ((publish_step st b).feed.map (fun it => it.guid)).Nodup := by
  by_cases hany : st.feed.any (fun it => it.guid == b.id) = true
  · rw [publish_step_skip ((feed_guid_mem _ _).mp hany)]
    exact h
  · have hnm : b.id ∉ st.feed.map (fun it => it.guid) := fun hm =>
      hany ((feed_guid_mem _ _).mpr hm)
    simp only [publish_step, add_item, hany]
    simp only [Bool.false_eq_true, if_false, if_true, List.map_append, List.map_cons,
      List.map_nil]
    rw [List.nodup_append]
    refine ⟨h, List.nodup_singleton _, ?_⟩
    intro g hg hg'
    rw [List.mem_singleton] at hg'
    exact hnm (hg' ▸ hg)

theorem publish_fold_nodup (cands : List Article) (st : PublishState)
    (h : (st.feed.map (fun it => it.guid)).Nodup) :
    (((cands.foldl publish_step st).feed).map (fun it => it.guid)).Nodup := by
  induction cands generalizing st with
  | nil => exact h
  | cons c rest ih => exact ih _ (publish_step_nodup h c)

theorem publish_fold_no_op {cands : List Article} {st : PublishState}
    (h : ∀ a ∈ cands, a.id ∈ st.feed.map (fun it => it.guid)) :
    cands.foldl publish_step st = st := by
  induction cands with
  | nil => rfl
  | cons c rest ih =>
    rw [List.foldl_cons, publish_step_skip (h c (List.mem_cons_self c rest))]
    exact ih (fun a ha => h a (List.mem_cons_of_mem c ha))

theorem mem_publish_step_db {st : PublishState} {b : Article} {x : Article}
    (hx : x ∈ (publish_step st b).db) :
    x ∈ st.db ∨
      (x.processing_status = Status.published ∧ x.published_to_feed = some true) := by
  rcases publish_step_db st b with heq | heq
  · exact Or.inl (heq ▸ hx)
  · rw [heq, update_item_status, update_item] at hx
    rcases List.mem_map.mp hx with ⟨y, hy, hxy⟩
    by_cases hc : y.id == b.id
    · right
      rw [← hxy]
      simp only [hc, if_true]
      constructor
      · exact set_status_status _ y
      · simp [set_status]
    · left
      rw [← hxy]
      simp [hc, hy]

theorem mem_publish_fold_db {cands : List Article} {st : PublishState} {x : Article}
    (hx : x ∈ (cands.foldl publish_step st).db) :
    x ∈ st.db ∨
      (x.processing_status = Status.published ∧ x.published_to_feed = some true) := by
  induction cands generalizing st with
  | nil => exact Or.inl hx
  | cons c rest ih =>
    rcases ih hx with h1 | h2
    · exact mem_publish_step_db h1
    · exact Or.inr h2

theorem publish_fold_map_id (cands : List Article) (st : PublishState) :
    ((cands.foldl publish_step st).db).map (fun a => a.id)
      = st.db.map (fun a => a.id) := by
  induction cands generalizing st with
  | nil => rfl
  | cons c rest ih =>
    rw [List.foldl_cons, ih]
    rcases publish_step_db st c with heq | heq
    · rw [heq]
    · rw [heq, update_item_status_map_id]

theorem publish_fold_get_item (cands : List Article) (st : PublishState) (i : String)
    (h : ∀ c ∈ cands, c.id ≠ i) :
    get_item ((cands.foldl publish_step st).db) i = get_item st.db i := by
  induction cands generalizing st with
  | nil => rfl
  | cons c rest ih =>
    rw [List.foldl_cons, ih _ (fun x hx => h x (List.mem_cons_of_mem c hx))]
    rcases publish_step_db st c with heq | heq
    · rw [heq]
    · rw [heq, get_item_update_item_status_other _ _ _ _
        (fun hi => h c (List.mem_cons_self c rest) hi.symm)]

/-! ## C1 — threshold routing of `_process_single_item` -/

/-- C1 (amended): when `_process_single_item` completes analysis of an item
(returns `some`), the stored `processing_status` becomes `filtered_out` if
and only if the LLM returned a truthy `filtered_reason`; otherwise it
becomes `processed` regardless of how the relevance score compares to the
category threshold.  The threshold comparison only decides the high-quality
result: `1` iff there is no truthy reason and `score ≥ threshold`. -/
theorem C1_threshold_routing (item : Article) (existing : Option Article)
    (llm : LlmAnalysis) (t : ℚ) (item' : Article) (q : Nat)
    (h : process_single_item item existing llm t = some (item', q)) :
    (item'.processing_status = Status.filtered_out ↔
      reason_present llm.filtered_reason = true) ∧
    (item'.processing_status = Status.processed ↔
      reason_present llm.filtered_reason = false) ∧
    (q = 1 ↔ (reason_present llm.filtered_reason = false ∧
      t ≤ llm.relevance_score)) := by
  unfold process_single_item at h
  split at h
  · exact absurd h (by simp)
  · by_cases hr : reason_present llm.filtered_reason = true
    · rw [if_pos hr] at h
      simp only [Option.some.injEq, Prod.mk.injEq] at h
      obtain ⟨hi, hq⟩ := h
      subst hi
      simp [hr, hq.symm]
    · rw [if_neg hr] at h
      rw [Bool.not_eq_true] at hr
      by_cases hs : t ≤ llm.relevance_score
      · rw [if_pos hs] at h
        simp only [Option.some.injEq, Prod.mk.injEq] at h
        obtain ⟨hi, hq⟩ := h
        subst hi
        simp [hr, hq.symm, hs]
      · rw [if_neg hs] at h
        simp only [Option.some.injEq, Prod.mk.injEq] at h
        obtain ⟨hi, hq⟩ := h
        subst hi
        simp [hr, hq.symm, hs]

/-- Article used to exercise the single-item analysis concretely. -/
def c1_item : Article :=
  { id := "c1", category := "ML", published := 0, crawled := 0
    processing_status := Status.pending, llm_analysis := none
    published_to_feed := none }

/-- LLM result with a score below the threshold and no filter reason. -/
def c1_llm : LlmAnalysis :=
  { relevance_score := mkRat 11 20, filtered_reason := none }

/-- C1 counterexample: an article analyzed with score `0.55`, category
threshold `0.6`, and no `filtered_reason` ends in status `processed`, not
`filtered_out` as the claim requires for `s < t`. -/
theorem C1_counterexample :
    c1_llm.filtered_reason = none ∧
    c1_llm.relevance_score < mkRat 3 5 ∧
    (process_single_item c1_item none c1_llm (mkRat 3 5)).map
      (fun p => p.1.processing_status) = some Status.processed ∧
    Status.processed ≠ Status.filtered_out := by decide

/-- LLM result carrying a truthy filter reason. -/
def c1w_llm : LlmAnalysis :=
  { relevance_score := mkRat 9 10, filtered_reason := some "marketing content" }

/-- Analysis result of `c1_item` under `c1w_llm`. -/
def c1w_result : Article :=
  { c1_item with
    llm_analysis := some c1w_llm
    processing_status := Status.filtered_out }

/-- Witness for C1: the routing theorem applied to a concrete filtered item. -/
theorem C1_threshold_routing_witness :
    (c1w_result.processing_status = Status.filtered_out ↔
      reason_present c1w_llm.filtered_reason = true) ∧
    (c1w_result.processing_status = Status.processed ↔
      reason_present c1w_llm.filtered_reason = false) ∧
    (0 = 1 ↔ (reason_present c1w_llm.filtered_reason = false ∧
      mkRat 3 5 ≤ c1w_llm.relevance_score)) :=
  C1_threshold_routing c1_item none c1w_llm (mkRat 3 5) c1w_result 0 (by decide)

/-! ## C3 — dual-threshold publish eligibility -/

/-- C3 (amended): the publisher's candidate set is sound for the documented
query predicate — status in `{processed, filtered_out}`, score at or above
the publish threshold, `published_to_feed` absent or false — and complete
for it whenever at most 100 articles match (the store query's default cap);
in particular a `filtered_out` article whose score meets the threshold and
which is unpublished satisfies the predicate. -/
theorem C3_publish_eligibility :
    (∀ (db : DB) (a : Article), a ∈ update_feed_candidates db →
        a ∈ db ∧ matches_filtered_query (mkRat 3 5) none a = true) ∧
    (∀ (db : DB) (a : Article),
        (db.filter (matches_filtered_query (mkRat 3 5) none)).length ≤ 100 →
        a ∈ db → matches_filtered_query (mkRat 3 5) none a = true →
        a ∈ update_feed_candidates db) ∧
    (∀ (a : Article) (m : ℚ) (la : LlmAnalysis),
        a.processing_status = Status.filtered_out →
        a.llm_analysis = some la → m ≤ la.relevance_score →
        (a.published_to_feed = none ∨ a.published_to_feed = some false) →
        matches_filtered_query m none a = true) := by
  refine ⟨fun db a h => mem_get_filtered_items h,
    fun db a hcap ha hm => get_filtered_items_complete hcap ha hm,
    fun a m la hs hla hsc hf => ?_⟩
  unfold matches_filtered_query
  rw [hs, hla]
  rcases hf with h | h <;> simp [h, hsc]

/-- Family of qualifying processed articles used to exhibit the query cap. -/
def c3_article (n : Nat) : Article :=
  { id := "a" ++ toString n, category := "ML", published := n, crawled := n
    processing_status := Status.processed
    llm_analysis := some { relevance_score := mkRat 9 10, filtered_reason := none }
    published_to_feed := none }

/-- A store holding 101 qualifying articles. -/
def c3_db : DB := (List.range 101).map c3_article

/-- C3 counterexample: with 101 qualifying articles in the store, the
article with the latest publish time qualifies for the documented predicate
but is not in the publisher's candidate set, because the query is capped at
its default limit of 100. -/
theorem C3_counterexample :
    c3_article 100 ∈ c3_db ∧
    matches_filtered_query (mkRat 3 5) none (c3_article 100) = true ∧
    c3_article 100 ∉ update_feed_candidates c3_db := by decide

/-- Witness for C3: the soundness and eligibility parts applied to a
one-article store. -/
theorem C3_publish_eligibility_witness :
    c3_article 0 ∈ [c3_article 0] ∧
    matches_filtered_query (mkRat 3 5) none (c3_article 0) = true :=
  C3_publish_eligibility.1 [c3_article 0] (c3_article 0)
    (C3_publish_eligibility.2.1 [c3_article 0] (c3_article 0) (by decide) (by decide)
      (by decide))

/-! ## C4 — publish dedup idempotence -/

/-- Key step for the second publisher run: when at most 100 articles match
the publish query, every candidate of the second run already has its guid
in the feed produced by the first run. -/
theorem update_feed_second_run_guids (db : DB) (feed : FeedDoc)
    (hcap : (db.filter (matches_filtered_query (mkRat 3 5) none)).length ≤ 100) :
    ∀ a ∈ update_feed_candidates (update_feed_main db feed).db,
      a.id ∈ (update_feed_main db feed).feed.map (fun it => it.guid) := by
  intro a ha
  have hm := mem_get_filtered_items
    (show a ∈ get_filtered_items (update_feed_main db feed).db (mkRat 3 5) 100 none from ha)
  have hmem : a ∈ ((update_feed_candidates db).foldl publish_step
      { db := db, feed := feed, articles_added := 0 }).db := hm.1
  rcases mem_publish_fold_db hmem with hdb | hpub
  · have hc1 : a ∈ update_feed_candidates db :=
      get_filtered_items_complete hcap hdb hm.2
    exact publish_fold_adds _ hc1
  · exfalso
    have := hm.2
    unfold matches_filtered_query at this
    rw [hpub.1] at this
    simp at this

/-- C4 (amended): provided at most 100 articles match the publish query,
running the publisher twice in succession is idempotent: the second run
reports zero additions and changes neither the feed document nor the store;
when the initial feed has no duplicate guids, the final feed contains each
first-run candidate's guid exactly once; and a skip due to an
already-present guid leaves the publisher state entirely unchanged (in
particular it never sets `published_to_feed`). -/
theorem C4_publish_dedup (db : DB) (feed : FeedDoc)
    (hnodup : (feed.map (fun it => it.guid)).Nodup)
    (hcap : (db.filter (matches_filtered_query (mkRat 3 5) none)).length ≤ 100) :
    (update_feed_main (update_feed_main db feed).db
      (update_feed_main db feed).feed).articles_added = 0 ∧
    (update_feed_main (update_feed_main db feed).db
      (update_feed_main db feed).feed).feed = (update_feed_main db feed).feed ∧
    (update_feed_main (update_feed_main db feed).db
      (update_feed_main db feed).feed).db = (update_feed_main db feed).db ∧
    (∀ a ∈ update_feed_candidates db,
      (((update_feed_main (update_feed_main db feed).db
        (update_feed_main db feed).feed).feed).map (fun it => it.guid)).count a.id = 1) ∧
    (∀ (st : PublishState) (b : Article),
      b.id ∈ st.feed.map (fun it => it.guid) → publish_step st b = st) := by
  have hno : update_feed_main (update_feed_main db feed).db (update_feed_main db feed).feed
      = { db := (update_feed_main db feed).db
          feed := (update_feed_main db feed).feed
          articles_added := 0 } := by
    exact publish_fold_no_op (update_feed_second_run_guids db feed hcap)
  refine ⟨by rw [hno], by rw [hno], by rw [hno], ?_, fun st b hb => publish_step_skip hb⟩
  intro a ha
  rw [hno]
  have hmem : a.id ∈ (update_feed_main db feed).feed.map (fun it => it.guid) :=
    publish_fold_adds _ ha
  have hnd : ((update_feed_main db feed).feed.map (fun it => it.guid)).Nodup :=
    publish_fold_nodup _ _ hnodup
  exact List.count_eq_one_of_mem hnd hmem

set_option maxRecDepth 4000 in
/-- C4 counterexample: with 101 qualifying articles and an empty feed, the
first publisher run adds only the 100 capped candidates, so the second run
picks up the remaining article and reports one addition, not zero. -/
theorem C4_counterexample :
    (update_feed_main (update_feed_main c3_db []).db
      (update_feed_main c3_db []).feed).articles_added = 1 := by decide

/-- Qualifying article for the dedup witness. -/
def c4_article : Article :=
  { id := "b1", category := "Tech", published := 5, crawled := 5
    processing_status := Status.filtered_out
    llm_analysis := some { relevance_score := mkRat 4 5, filtered_reason := none }
    published_to_feed := some false }

/-- Witness for C4: the dedup theorem applied to a one-article store and an
empty feed. -/
theorem C4_publish_dedup_witness :
    (update_feed_main (update_feed_main [c4_article] []).db
      (update_feed_main [c4_article] []).feed).articles_added = 0 ∧
    (update_feed_main (update_feed_main [c4_article] []).db
      (update_feed_main [c4_article] []).feed).feed = (update_feed_main [c4_article] []).feed ∧
    (update_feed_main (update_feed_main [c4_article] []).db
      (update_feed_main [c4_article] []).feed).db = (update_feed_main [c4_article] []).db ∧
    (∀ a ∈ update_feed_candidates [c4_article],
      (((update_feed_main (update_feed_main [c4_article] []).db
        (update_feed_main [c4_article] []).feed).feed).map (fun it => it.guid)).count a.id = 1) ∧
    (∀ (st : PublishState) (b : Article),
      b.id ∈ st.feed.map (fun it => it.guid) → publish_step st b = st) :=
  C4_publish_dedup [c4_article] [] (by decide) (by decide)

/-! ## C2 — reconciliation completeness -/

/-- C2 (amended): reconciliation completeness holds for the `processed`
part of the repair set.  For an article in the store with status
`processed`, score at or above both the reconciler's threshold and the
publisher's hard-coded `0.6`, inside the trailing window, and missing from
the feed document, the reconciler strips `published_to_feed` and the
publisher run it triggers adds the article's guid to the feed — provided at
most 100 articles match the publish query after the repair write.
(Repair-set articles with status `published` are stripped but not re-added:
see the counterexample.) -/
theorem C2_reconciliation_processed (db : DB) (feed : FeedDoc) (s e : Nat) (m : ℚ)
    (X : Article) (la : LlmAnalysis)
    (hX : X ∈ db)
    (hstatus : X.processing_status = Status.processed)
    (hla : X.llm_analysis = some la)
    (hm : m ≤ la.relevance_score)
    (hpub : mkRat 3 5 ≤ la.relevance_score)
    (hwin : in_window s e X = true)
    (hmiss : X.id ∉ xml_article_ids feed)
    (hcap : ((unset_published_to_feed db
        ((find_missing_articles (get_processed_articles db s e m)
          (xml_article_ids feed)).map (fun a => a.id))).filter
        (matches_filtered_query (mkRat 3 5) none)).length ≤ 100) :
    { X with published_to_feed := none } ∈ unset_published_to_feed db
        ((find_missing_articles (get_processed_articles db s e m)
          (xml_article_ids feed)).map (fun a => a.id)) ∧
    X.id ∈ ((reconcile_processed_articles db feed s e m).2.map (fun it => it.guid)) := by
  have hq : matches_reconcile_query m s e X = true := by
    unfold matches_reconcile_query
    rw [hstatus, hla, hwin]
    simp [hm]
  have hXp : X ∈ get_processed_articles db s e m := List.mem_filter.mpr ⟨hX, hq⟩
  have hmiss' : (!((xml_article_ids feed).contains X.id)) = true := by
    simp only [Bool.not_eq_true']
    exact Bool.of_not_eq_true (fun hc => hmiss (List.mem_of_elem_eq_true hc))
  have hXm : X ∈ find_missing_articles (get_processed_articles db s e m)
      (xml_article_ids feed) := List.mem_filter.mpr ⟨hXp, hmiss'⟩
  have hpe : (get_processed_articles db s e m).isEmpty = false := by
    rw [List.isEmpty_eq_false]
    exact List.ne_nil_of_mem hXp
  have hme : (find_missing_articles (get_processed_articles db s e m)
      (xml_article_ids feed)).isEmpty = false := by
    rw [List.isEmpty_eq_false]
    exact List.ne_nil_of_mem hXm
  have hXid : X.id ∈ (find_missing_articles (get_processed_articles db s e m)
      (xml_article_ids feed)).map (fun a => a.id) :=
    List.mem_map_of_mem (fun a => a.id) hXm
  have hX2 : { X with published_to_feed := none } ∈ unset_published_to_feed db
      ((find_missing_articles (get_processed_articles db s e m)
        (xml_article_ids feed)).map (fun a => a.id)) := by
    refine List.mem_map.mpr ⟨X, hX, ?_⟩
    rw [if_pos (List.elem_eq_true_of_mem hXid)]
  have hX2q : matches_filtered_query (mkRat 3 5) none
      { X with published_to_feed := none } = true := by
    unfold matches_filtered_query
    simp [hstatus, hla, hpub]
  have hcand : { X with published_to_feed := none } ∈
      update_feed_candidates (unset_published_to_feed db
        ((find_missing_articles (get_processed_articles db s e m)
          (xml_article_ids feed)).map (fun a => a.id))) :=
    get_filtered_items_complete hcap hX2 hX2q
  refine ⟨hX2, ?_⟩
  simp only [reconcile_processed_articles, hpe, hme, Bool.false_eq_true, if_false]
  have hadd := publish_fold_adds
    ({ db := unset_published_to_feed db
        ((find_missing_articles (get_processed_articles db s e m)
          (xml_article_ids feed)).map (fun a => a.id))
       feed := feed, articles_added := 0 } : PublishState) hcand
  exact hadd

/-- Article that thinks it was published but is missing from the feed. -/
def c2_article : Article :=
  { id := "w1", category := "ML", published := 1, crawled := 1
    processing_status := Status.processed
    llm_analysis := some { relevance_score := mkRat 9 10, filtered_reason := none }
    published_to_feed := some true }

/-- Witness for C2: the completeness theorem applied to a one-article store
and an empty feed. -/
theorem C2_reconciliation_processed_witness :
    { c2_article with published_to_feed := none } ∈ unset_published_to_feed [c2_article]
        ((find_missing_articles (get_processed_articles [c2_article] 0 10 (mkRat 3 5))
          (xml_article_ids [])).map (fun a => a.id)) ∧
    c2_article.id ∈
      ((reconcile_processed_articles [c2_article] [] 0 10 (mkRat 3 5)).2.map
        (fun it => it.guid)) :=
  C2_reconciliation_processed [c2_article] [] 0 10 (mkRat 3 5) c2_article
    { relevance_score := mkRat 9 10, filtered_reason := none }
    (by decide) (by decide) (by decide) (by decide) (by decide) (by decide)
    (by decide) (by decide)

/-- Published-status article that silently dropped out of the feed. -/
def c2_pub_article : Article :=
  { id := "p1", category := "ML", published := 1, crawled := 1
    processing_status := Status.published
    llm_analysis := some { relevance_score := mkRat 9 10, filtered_reason := none }
    published_to_feed := some true }

/-- C2 counterexample: an article of the repair set whose status is
`published` (the publish-step-silently-failed drift case) has its
`published_to_feed` flag stripped by the reconciler, but the publisher run
does not re-add it, because `get_filtered_items` only matches statuses
`processed` and `filtered_out`. -/
theorem C2_counterexample :
    c2_pub_article.processing_status = Status.published ∧
    matches_reconcile_query (mkRat 3 5) 0 10 c2_pub_article = true ∧
    c2_pub_article.id ∉ xml_article_ids [] ∧
    c2_pub_article.id ∉
      ((reconcile_processed_articles [c2_pub_article] [] 0 10 (mkRat 3 5)).2.map
        (fun it => it.guid)) := by decide

/-! ## C10 — fixed publish threshold -/

/-- C10: the publisher's candidate selection is fixed: `update_feed.main`
always queries with `min_score = 0.6`, no category filter, and the store
query's default cap of 100.  The per-category `quality_threshold` and
category passed to `_publish_unpublished_articles_step` only gate whether a
publish run is triggered: whenever two parameterizations agree on whether
the gating query is empty, the resulting state is identical; the candidate
list never exceeds 100 items; and every candidate satisfies the hard-coded
`0.6` predicate. -/
theorem C10_fixed_publish_threshold :
    (∀ (db : DB) (feed : FeedDoc) (t1 t2 : ℚ) (c1 c2 : Option String),
        (get_filtered_items db t1 100 c1).isEmpty
          = (get_filtered_items db t2 100 c2).isEmpty →
        publish_unpublished_articles_step db feed t1 c1
          = publish_unpublished_articles_step db feed t2 c2) ∧
    (∀ db : DB, update_feed_candidates db = get_filtered_items db (mkRat 3 5) 100 none) ∧
    (∀ db : DB, (update_feed_candidates db).length ≤ 100) ∧
    (∀ (db : DB) (a : Article), a ∈ update_feed_candidates db →
        matches_filtered_query (mkRat 3 5) none a = true) := by
  refine ⟨fun db feed t1 t2 c1 c2 h => ?_, fun db => rfl, fun db => ?_,
    fun db a ha => (mem_get_filtered_items ha).2⟩
  · unfold publish_unpublished_articles_step
    rw [h]
  · rw [update_feed_candidates, get_filtered_items, List.length_take]
    exact min_le_left _ _

/-- Witness for C10: gating equivalence applied to an empty store with two
different thresholds and categories. -/
theorem C10_fixed_publish_threshold_witness :
    publish_unpublished_articles_step [] [] (mkRat 1 2) (some "ML")
      = publish_unpublished_articles_step [] [] (mkRat 9 10) none :=
  C10_fixed_publish_threshold.1 [] [] (mkRat 1 2) (mkRat 9 10) (some "ML") none
    (by decide)

/-! ## C5 — state-machine monotonicity -/

/-- Status written by a completed single-item analysis is never `pending`. -/
theorem process_single_item_status_ne_pending {item : Article}
    {existing : Option Article} {llm : LlmAnalysis} {t : ℚ} {qr : Article × Nat}
    (h : process_single_item item existing llm t = some qr) :
    qr.1.processing_status ≠ Status.pending := by
  unfold process_single_item at h
  split at h
  · exact absurd h (by simp)
  · split at h
    · simp only [Option.some.injEq] at h
      rw [← h]
      simp
    · split at h <;>
      · simp only [Option.some.injEq] at h
        rw [← h]
        simp

/-- Predicate: the record stored under id `i` exists and is past `pending`. -/
def not_pending_state (db : DB) (i : String) : Prop :=
  ∃ a, get_item db i = some a ∧ a.processing_status ≠ Status.pending

theorem get_item_append_left {db : DB} {i : String} {a : Article}
    (h : get_item db i = some a) (l : List Article) :
    get_item (db ++ l) i = some a := by
  rw [get_item, List.find?_append]
  rw [get_item] at h
  rw [h]
  rfl

theorem np_map (db : DB) (h : Article → Article) (i : String)
    (hid : ∀ a, (h a).id = a.id)
    (hs : ∀ a, a.processing_status ≠ Status.pending →
      (h a).processing_status ≠ Status.pending) :
    not_pending_state db i → not_pending_state (db.map h) i := by
  rintro ⟨a, ha, hnp⟩
  exact ⟨h a, by rw [get_item_map db h hid i, ha]; rfl, hs a hnp⟩

theorem np_update_item (db : DB) (j : String) (f : Article → Article) (i : String)
    (hfid : ∀ a, (f a).id = a.id)
    (hfs : ∀ a, a.processing_status ≠ Status.pending →
      (f a).processing_status ≠ Status.pending) :
    not_pending_state db i → not_pending_state (update_item db j f) i := by
  refine np_map db _ i (fun a => ?_) (fun a ha => ?_)
  · by_cases hc : a.id = j <;> simp [hc, hfid a]
  · by_cases hc : a.id = j <;> simp [hc, hfs a ha, ha]

theorem np_ingest (db : DB) (item : Article) (cat : String) (i : String) :
    not_pending_state db i → not_pending_state (ingest_item db item cat) i := by
  rintro ⟨a, ha, hnp⟩
  unfold ingest_item
  split
  · exact ⟨a, ha, hnp⟩
  · exact ⟨a, get_item_append_left ha _, hnp⟩

theorem np_analyze (db : DB) (item : Article) (llm : Option LlmAnalysis) (t : ℚ)
    (i : String) :
    not_pending_state db i → not_pending_state (analyze_op db item llm t) i := by
  intro hnp
  cases llm with
  | none => exact hnp
  | some analysis =>
    cases hp : process_single_item item (get_item db item.id) analysis t with
    | none => simpa [analyze_op, hp] using hnp
    | some qr =>
      have hu := np_update_item db item.id (analysis_update qr) i (fun a => rfl)
        (fun a _ => process_single_item_status_ne_pending hp) hnp
      simpa [analyze_op, hp] using hu

theorem np_publish_step (st : PublishState) (b : Article) (i : String) :
    not_pending_state st.db i → not_pending_state ((publish_step st b).db) i := by
  intro hnp
  rcases publish_step_db st b with heq | heq <;> rw [heq]
  · exact hnp
  · refine np_update_item st.db b.id _ i (set_status_id _) (fun a _ => ?_) hnp
    rw [set_status_status]
    simp

theorem np_publish_fold (cands : List Article) (st : PublishState) (i : String) :
    not_pending_state st.db i →
    not_pending_state ((cands.foldl publish_step st).db) i := by
  induction cands generalizing st with
  | nil => exact id
  | cons c rest ih => exact fun h => ih _ (np_publish_step st c i h)

theorem np_update_feed_main (db : DB) (feed : FeedDoc) (i : String) :
    not_pending_state db i → not_pending_state ((update_feed_main db feed).db) i :=
  np_publish_fold (update_feed_candidates db)
    { db := db, feed := feed, articles_added := 0 } i

theorem np_unset (db : DB) (ids : List String) (i : String) :
    not_pending_state db i → not_pending_state (unset_published_to_feed db ids) i := by
  refine np_map db _ i (fun a => ?_) (fun a ha => ?_)
  · by_cases hc : a.id ∈ ids <;> simp [hc]
  · by_cases hc : a.id ∈ ids <;> simp [hc, ha]

theorem np_reconcile (db : DB) (feed : FeedDoc) (s e : Nat) (m : ℚ) (i : String) :
    not_pending_state db i →
    not_pending_state ((reconcile_processed_articles db feed s e m).1) i := by
  intro hnp
  simp only [reconcile_processed_articles]
  split
  · exact hnp
  · split
    · exact hnp
    · exact np_update_feed_main _ feed i (np_unset db _ i hnp)

theorem np_pipeline_step (st : DB × FeedDoc) (op : PipelineOp) (i : String) :
    not_pending_state st.1 i → not_pending_state ((pipeline_step st op).1) i := by
  intro hnp
  cases op with
  | ingest item cat => exact np_ingest st.1 item cat i hnp
  | analyze item llm t => exact np_analyze st.1 item llm t i hnp
  | publish => exact np_update_feed_main st.1 st.2 i hnp
  | reconcile s e m => exact np_reconcile st.1 st.2 s e m i hnp

theorem np_pipeline_run (ops : List PipelineOp) (st : DB × FeedDoc) (i : String) :
    not_pending_state st.1 i → not_pending_state (pipeline_run st ops).1 i := by
  induction ops generalizing st with
  | nil => exact id
  | cons op rest ih => exact fun h => ih _ (np_pipeline_step st op i h)

/-- C5: over every sequence of pipeline operations (ingestion, analysis,
publishing, reconciliation), an article that has left `pending` is never
observed `pending` again; and the reconciliation repair write changes at
most the `published_to_feed` field of each record (removing it for the
repair set) and never touches `processing_status`. -/
theorem C5_state_machine_monotonicity :
    (∀ (ops : List PipelineOp) (st : DB × FeedDoc) (i : String) (a : Article),
        get_item st.1 i = some a → a.processing_status ≠ Status.pending →
        ∀ a', get_item (pipeline_run st ops).1 i = some a' →
          a'.processing_status ≠ Status.pending) ∧
    (∀ (db : DB) (ids : List String) (i : String),
        get_item (unset_published_to_feed db ids) i
          = (get_item db i).map (fun a =>
              if ids.contains a.id then { a with published_to_feed := none } else a)) ∧
    (∀ (db : DB) (ids : List String),
        (unset_published_to_feed db ids).map (fun a => a.processing_status)
          = db.map (fun a => a.processing_status)) := by
  refine ⟨fun ops st i a ha hnp a' ha' => ?_, fun db ids i => ?_, fun db ids => ?_⟩
  · have hrun : not_pending_state (pipeline_run st ops).1 i :=
      np_pipeline_run ops st i ⟨a, ha, hnp⟩
    rcases hrun with ⟨b, hb, hbnp⟩
    rw [ha'] at hb
    cases hb
    exact hbnp
  · refine get_item_map db _ (fun a => ?_) i
    by_cases hc : a.id ∈ ids <;> simp [hc]
  · rw [unset_published_to_feed, List.map_map]
    refine List.map_congr_left (fun a _ => ?_)
    by_cases hc : a.id ∈ ids <;> simp [hc]

/-- Article for the monotonicity witness: processed, publishable, unflagged. -/
def c5_article : Article :=
  { id := "m1", category := "ML", published := 2, crawled := 2
    processing_status := Status.processed
    llm_analysis := some { relevance_score := mkRat 4 5, filtered_reason := none }
    published_to_feed := none }

/-- Record of `c5_article` after a publisher run. -/
def c5_after : Article :=
  { c5_article with
    processing_status := Status.published
    published_to_feed := some true }

/-- Witness for C5: a processed article run through a publish operation is
still not `pending`. -/
theorem C5_state_machine_monotonicity_witness :
    c5_after.processing_status ≠ Status.pending :=
  C5_state_machine_monotonicity.1 [PipelineOp.publish] ([c5_article], []) "m1"
    c5_article (by decide) (by decide) c5_after (by decide)

/-! ## C8 — failure atomicity and batch isolation -/

theorem mem_get_items_by_status {db : DB} {s : Status} {cat : Option String}
    {lim : Option Nat} {a : Article} (h : a ∈ get_items_by_status db s cat lim) :
    a ∈ db ∧ matches_status_query s cat a = true := by
  have hmem : a ∈ sort_by_published (db.filter (matches_status_query s cat)) := by
    cases lim with
    | none => exact h
    | some n => exact List.mem_of_mem_take h
  have h2 : a ∈ db.filter (matches_status_query s cat) :=
    (sort_by_published_perm _).mem_iff.mp hmem
  exact ⟨(List.mem_filter.mp h2).1, (List.mem_filter.mp h2).2⟩

theorem get_items_by_status_nodup_ids {db : DB}
    (hnodup : (db.map (fun a => a.id)).Nodup) (s : Status) (cat : Option String)
    (lim : Option Nat) :
    ((get_items_by_status db s cat lim).map (fun a => a.id)).Nodup := by
  have hf : ((db.filter (matches_status_query s cat)).map (fun a => a.id)).Nodup :=
    ((List.filter_sublist db).map _).nodup hnodup
  have hs : ((sort_by_published (db.filter (matches_status_query s cat))).map
      (fun a => a.id)).Nodup :=
    (((sort_by_published_perm (db.filter (matches_status_query s cat))).map
      (fun a => a.id)).symm).nodup hf
  cases lim with
  | none => exact hs
  | some n => exact ((List.take_sublist n _).map _).nodup hs

theorem status_of_matches {s : Status} {cat : Option String} {a : Article}
    (h : matches_status_query s cat a = true) : a.processing_status = s := by
  unfold matches_status_query at h
  rw [Bool.and_eq_true] at h
  exact eq_of_beq h.1

theorem candidates_id_ne_of_pending {db : DB}
    (hnodup : (db.map (fun x => x.id)).Nodup) {a : Article}
    (ha : get_item db a.id = some a)
    (hpend : a.processing_status = Status.pending) :
    ∀ c ∈ update_feed_candidates db, c.id ≠ a.id := by
  intro c hc hceq
  have hm := mem_get_filtered_items
    (show c ∈ get_filtered_items db (mkRat 3 5) 100 none from hc)
  have hgc : get_item db c.id = some c := get_item_of_mem_nodup hnodup hm.1
  rw [hceq, ha] at hgc
  have hac : a = c := Option.some.inj hgc
  have := hm.2
  rw [← hac] at this
  unfold matches_filtered_query at this
  rw [hpend] at this
  simp at this

theorem batch_item_step_preserves (llm : Article → Option LlmAnalysis)
    (st : BatchState) (b : Article) (a : Article)
    (hpend : a.processing_status = Status.pending)
    (hga : get_item st.db a.id = some a)
    (hnodup : (st.db.map (fun x => x.id)).Nodup)
    (hbne : b.id = a.id → llm b = none) :
    get_item ((batch_item_step llm st b).db) a.id = some a ∧
    ((batch_item_step llm st b).db).map (fun x => x.id)
      = st.db.map (fun x => x.id) := by
  cases hllm : llm b with
  | none => exact ⟨by simpa [batch_item_step, hllm] using hga, by simp [batch_item_step, hllm]⟩
  | some analysis =>
    have hbne' : b.id ≠ a.id := by
      intro he
      rw [hbne he] at hllm
      cases hllm
    cases hp : process_single_item b (get_item st.db b.id) analysis
        st.comp.quality_threshold with
    | none => exact ⟨by simpa [batch_item_step, hllm, hp] using hga,
        by simp [batch_item_step, hllm, hp]⟩
    | some qr =>
      have hfid : ∀ x : Article, (analysis_update qr x).id = x.id := fun x => rfl
      have h1 : get_item (update_item st.db b.id (analysis_update qr)) a.id
          = some a := by
        rw [get_item_update_item_other st.db b.id a.id _ hfid
          (fun he => hbne' he.symm)]
        exact hga
      have h2 : (update_item st.db b.id (analysis_update qr)).map (fun x => x.id)
          = st.db.map (fun x => x.id) :=
        update_item_map_id st.db b.id _ hfid
      have hnodup1 : ((update_item st.db b.id (analysis_update qr)).map
          (fun x => x.id)).Nodup := by
        rw [h2]
        exact hnodup
      have hcand := candidates_id_ne_of_pending hnodup1 h1 hpend
      have h3 : get_item ((update_feed_main (update_item st.db b.id
          (analysis_update qr)) st.feed).db) a.id = some a := by
        rw [show (update_feed_main (update_item st.db b.id (analysis_update qr))
            st.feed)
          = ((update_feed_candidates (update_item st.db b.id (analysis_update qr))).foldl
            publish_step
            { db := update_item st.db b.id (analysis_update qr), feed := st.feed
              articles_added := 0 }) from rfl]
        rw [publish_fold_get_item _ _ _ hcand]
        exact h1
      have h4 : ((update_feed_main (update_item st.db b.id (analysis_update qr))
          st.feed).db).map (fun x => x.id) = st.db.map (fun x => x.id) := by
        rw [show (update_feed_main (update_item st.db b.id (analysis_update qr))
            st.feed)
          = ((update_feed_candidates (update_item st.db b.id (analysis_update qr))).foldl
            publish_step
            { db := update_item st.db b.id (analysis_update qr), feed := st.feed
              articles_added := 0 }) from rfl]
        rw [publish_fold_map_id]
        exact h2
      by_cases hq : qr.2 = 1
      · by_cases htr : st.comp.high_quality_target ≤ st.comp.high_quality_count + 1
        · exact ⟨by simpa [batch_item_step, hllm, hp, hq, htr] using h3,
            by simpa [batch_item_step, hllm, hp, hq, htr] using h4⟩
        · exact ⟨by simpa [batch_item_step, hllm, hp, hq, htr] using h1,
            by simpa [batch_item_step, hllm, hp, hq, htr] using h2⟩
      · exact ⟨by simpa [batch_item_step, hllm, hp, hq] using h1,
          by simpa [batch_item_step, hllm, hp, hq] using h2⟩

theorem batch_fold_preserves (llm : Article → Option LlmAnalysis)
    (items : List Article) (st : BatchState) (a : Article)
    (hpend : a.processing_status = Status.pending)
    (hga : get_item st.db a.id = some a)
    (hnodup : (st.db.map (fun x => x.id)).Nodup)
    (hsame : ∀ b ∈ items, b.id = a.id → llm b = none) :
    get_item ((items.foldl (batch_item_step llm) st).db) a.id = some a ∧
    ((items.foldl (batch_item_step llm) st).db).map (fun x => x.id)
      = st.db.map (fun x => x.id) := by
  induction items generalizing st with
  | nil => exact ⟨hga, rfl⟩
  | cons b rest ih =>
    have hstep := batch_item_step_preserves llm st b a hpend hga hnodup
      (hsame b (List.mem_cons_self b rest))
    have hnodup' : (((batch_item_step llm st b).db).map (fun x => x.id)).Nodup := by
      rw [hstep.2]
      exact hnodup
    have hrest := ih (batch_item_step llm st b) hstep.1 hnodup'
      (fun x hx => hsame x (List.mem_cons_of_mem b hx))
    exact ⟨hrest.1, hrest.2.trans hstep.2⟩

theorem batch_fold_filter_failures (llm : Article → Option LlmAnalysis)
    (items : List Article) (st : BatchState) :
    items.foldl (batch_item_step llm) st
      = (items.filter (fun b => (llm b).isSome)).foldl (batch_item_step llm) st := by
  induction items generalizing st with
  | nil => rfl
  | cons b rest ih =>
    cases hb : llm b with
    | none =>
      rw [List.foldl_cons, show batch_item_step llm st b = st by
        simp [batch_item_step, hb]]
      rw [List.filter_cons_of_neg (by simp [hb])]
      exact ih st
    | some analysis =>
      rw [List.foldl_cons, List.filter_cons_of_pos (by simp [hb]), List.foldl_cons]
      exact ih _

/-- C8: an article of the pending batch whose analysis attempt raises
(modelled by the oracle answering `none`) is written nowhere — its stored
record is unchanged and still `pending` after the batch — and the batch is
equivalent to processing the remaining (non-failing) articles: failures are
skipped, never aborting the batch. -/
theorem C8_failure_isolation (db : DB) (feed : FeedDoc) (cat : String)
    (comp : BatchComponents) (stats : CategoryStats) (bs : Nat)
    (llm : Article → Option LlmAnalysis) (a : Article)
    (hnodup : (db.map (fun x => x.id)).Nodup)
    (ha : a ∈ get_items_by_status db Status.pending (some cat) (some bs))
    (hfail : llm a = none) :
    get_item ((process_category_batch db feed cat comp stats bs llm).db) a.id
      = some a ∧
    a.processing_status = Status.pending ∧
    process_category_batch db feed cat comp stats bs llm
      = ((get_items_by_status db Status.pending (some cat) (some bs)).filter
          (fun b => (llm b).isSome)).foldl (batch_item_step llm)
          { db := db, feed := feed, comp := comp, stats := stats
            articles_processed := 0, publish_runs := 0, quality_log := [] } := by
  have hmem := mem_get_items_by_status ha
  have hpend : a.processing_status = Status.pending := status_of_matches hmem.2
  have hitems : ((get_items_by_status db Status.pending (some cat) (some bs)).map
      (fun x => x.id)).Nodup :=
    get_items_by_status_nodup_ids hnodup Status.pending (some cat) (some bs)
  have hsame : ∀ b ∈ get_items_by_status db Status.pending (some cat) (some bs),
      b.id = a.id → llm b = none := by
    intro b hb hid
    have : b = a := List.inj_on_of_nodup_map hitems hb ha hid
    rw [this]
    exact hfail
  have hga : get_item db a.id = some a := get_item_of_mem_nodup hnodup hmem.1
  have hpr := batch_fold_preserves llm
    (get_items_by_status db Status.pending (some cat) (some bs))
    { db := db, feed := feed, comp := comp, stats := stats
      articles_processed := 0, publish_runs := 0, quality_log := [] }
    a hpend hga hnodup hsame
  exact ⟨hpr.1, hpend, batch_fold_filter_failures llm _ _⟩

/-- Pending article whose analysis will fail in the witness scenario. -/
def c8_bad : Article :=
  { id := "f1", category := "ML", published := 1, crawled := 1
    processing_status := Status.pending, llm_analysis := none
    published_to_feed := none }

/-- Pending article whose analysis succeeds in the witness scenario. -/
def c8_good : Article :=
  { id := "f2", category := "ML", published := 2, crawled := 2
    processing_status := Status.pending, llm_analysis := none
    published_to_feed := none }

/-- Oracle for the C8 witness: fails on `c8_bad`, succeeds on the rest. -/
def c8_llm (a : Article) : Option LlmAnalysis :=
  if a.id == "f1" then none
  else some { relevance_score := mkRat 7 10, filtered_reason := none }

/-- Components record used by the C8 witness. -/
def c8_comp : BatchComponents :=
  { quality_threshold := mkRat 3 5, high_quality_target := 10
    high_quality_count := 0 }

/-- Statistics record used by the C8 witness. -/
def c8_stats : CategoryStats :=
  { processed := 0, high_quality := 0, filtered := 0 }

/-- Witness for C8: in a two-article batch where the first article's
analysis raises, its record is untouched and pending, and the batch equals
the batch over the non-failing articles. -/
theorem C8_failure_isolation_witness :
    get_item ((process_category_batch [c8_bad, c8_good] [] "ML" c8_comp c8_stats 5
      c8_llm).db) c8_bad.id = some c8_bad ∧
    c8_bad.processing_status = Status.pending ∧
    process_category_batch [c8_bad, c8_good] [] "ML" c8_comp c8_stats 5 c8_llm
      = ((get_items_by_status [c8_bad, c8_good] Status.pending (some "ML")
          (some 5)).filter (fun b => (c8_llm b).isSome)).foldl (batch_item_step c8_llm)
          { db := [c8_bad, c8_good], feed := [], comp := c8_comp, stats := c8_stats
            articles_processed := 0, publish_runs := 0, quality_log := [] } :=
  C8_failure_isolation [c8_bad, c8_good] [] "ML" c8_comp c8_stats 5 c8_llm c8_bad
    (by decide) (by decide) (by decide)

/-! ## C9 — trigger-on-count -/

/-- Counter dynamics of the high-quality trigger, abstracted over the
sequence of per-article quality outcomes: a high-quality outcome bumps the
counter; reaching the target runs the publisher (counted in the second
component) and resets the counter. -/
def counter_step (target : Nat) (acc : Nat × Nat) (q : Bool) : Nat × Nat :=
  if q then
    if target ≤ acc.1 + 1 then (0, acc.2 + 1) else (acc.1 + 1, acc.2)
  else acc

/-- Run the counter dynamics over a sequence of quality outcomes. -/
def counter_run (target : Nat) (acc : Nat × Nat) (qs : List Bool) : Nat × Nat :=
  qs.foldl (counter_step target) acc

theorem counter_run_law (target : Nat) (qs : List Bool) (c p : Nat)
    (ht : 0 < target) (hc : c < target) :
    counter_run target (c, p) qs
      = ((c + qs.count true) % target, p + (c + qs.count true) / target) := by
  induction qs generalizing c p with
  | nil =>
    simp [counter_run, Nat.mod_eq_of_lt hc, Nat.div_eq_of_lt hc]
  | cons q rest ih =>
    cases q with
    | false =>
      rw [counter_run, List.foldl_cons,
        show counter_step target (c, p) false = (c, p) from rfl]
      rw [show (List.foldl (counter_step target) (c, p) rest)
        = counter_run target (c, p) rest from rfl, ih c p hc]
      simp [List.count_cons]
    | true =>
      by_cases he : c + 1 = target
      · rw [counter_run, List.foldl_cons,
          show counter_step target (c, p) true = (0, p + 1) by
            simp [counter_step, he.ge]]
        rw [show (List.foldl (counter_step target) (0, p + 1) rest)
          = counter_run target (0, p + 1) rest from rfl, ih 0 (p + 1) ht]
        rw [List.count_cons_self,
          show c + (rest.count true + 1) = target + rest.count true by omega,
          Nat.add_mod_left, Nat.zero_add,
          Nat.add_comm target (rest.count true), Nat.add_div_right _ ht,
          Nat.add_assoc p 1 (rest.count true / target),
          Nat.add_comm 1 (rest.count true / target)]
      · have hlt : c + 1 < target := by omega
        rw [counter_run, List.foldl_cons,
          show counter_step target (c, p) true = (c + 1, p) by
            simp [counter_step]
            omega]
        rw [show (List.foldl (counter_step target) (c + 1, p) rest)
          = counter_run target (c + 1, p) rest from rfl, ih (c + 1) p hlt]
        rw [List.count_cons_self,
          show c + (rest.count true + 1) = c + 1 + rest.count true by omega]

/-- Step version of the counter factorization: one batch iteration appends
at most one quality outcome to the log and advances the counter and the
publish-run count exactly by the counter dynamics on that outcome. -/
theorem batch_item_step_counter (llm : Article → Option LlmAnalysis)
    (st : BatchState) (b : Article) :
    ∃ q0 : List Bool,
      (batch_item_step llm st b).quality_log = st.quality_log ++ q0 ∧
      (batch_item_step llm st b).comp.high_quality_target
        = st.comp.high_quality_target ∧
      (batch_item_step llm st b).comp.quality_threshold
        = st.comp.quality_threshold ∧
      ((batch_item_step llm st b).comp.high_quality_count,
        (batch_item_step llm st b).publish_runs)
        = counter_run st.comp.high_quality_target
            (st.comp.high_quality_count, st.publish_runs) q0 := by
  cases hllm : llm b with
  | none => exact ⟨[], by simp [batch_item_step, hllm, counter_run]⟩
  | some analysis =>
    cases hp : process_single_item b (get_item st.db b.id) analysis
        st.comp.quality_threshold with
    | none => exact ⟨[], by simp [batch_item_step, hllm, hp, counter_run]⟩
    | some qr =>
      by_cases hq : qr.2 = 1
      · by_cases htr : st.comp.high_quality_target ≤ st.comp.high_quality_count + 1
        · refine ⟨[true], ?_⟩
          simp [batch_item_step, hllm, hp, hq, htr, counter_run, counter_step]
        · refine ⟨[true], ?_⟩
          simp [batch_item_step, hllm, hp, hq, htr, counter_run, counter_step]
      · refine ⟨[false], ?_⟩
        simp [batch_item_step, hllm, hp, hq, counter_run, counter_step]

/-- Fold version of the counter factorization: a whole batch's final
counter and publish-run count are obtained by running the counter dynamics
over the batch's quality log. -/
theorem batch_fold_counter (llm : Article → Option LlmAnalysis)
    (items : List Article) (st : BatchState) :
    ∃ qs : List Bool,
      (items.foldl (batch_item_step llm) st).quality_log = st.quality_log ++ qs ∧
      (items.foldl (batch_item_step llm) st).comp.high_quality_target
        = st.comp.high_quality_target ∧
      ((items.foldl (batch_item_step llm) st).comp.high_quality_count,
        (items.foldl (batch_item_step llm) st).publish_runs)
        = counter_run st.comp.high_quality_target
            (st.comp.high_quality_count, st.publish_runs) qs := by
  induction items generalizing st with
  | nil => exact ⟨[], by simp [counter_run]⟩
  | cons b rest ih =>
    obtain ⟨q0, hlog0, htgt0, _hthr0, hcnt0⟩ := batch_item_step_counter llm st b
    obtain ⟨qs, hlog, htgt, hcnt⟩ := ih (batch_item_step llm st b)
    refine ⟨q0 ++ qs, ?_, ?_, ?_⟩
    · rw [List.foldl_cons] at *
      rw [hlog, hlog0, List.append_assoc]
    · rw [List.foldl_cons] at *
      rw [htgt, htgt0]
    · rw [List.foldl_cons] at *
      rw [hcnt, htgt0, hcnt0, counter_run, counter_run, counter_run,
        List.foldl_append]

/-- Pending high-quality articles for the concrete trigger scenario. -/
def c9_article (n : Nat) : Article :=
  { id := "q" ++ toString n, category := "ML", published := n, crawled := n
    processing_status := Status.pending, llm_analysis := none
    published_to_feed := none }

/-- Store with four pending articles. -/
def c9_db : DB := [c9_article 1, c9_article 2, c9_article 3, c9_article 4]

/-- Oracle returning a high score and no reason for every article. -/
def c9_llm (_ : Article) : Option LlmAnalysis :=
  some { relevance_score := mkRat 9 10, filtered_reason := none }

/-- C9 (amended): the per-category counter counts high-quality results —
articles that complete analysis with no filter reason and score at or above
the category threshold — not every transition into `processed`.  The
publisher trigger follows the counter dynamics `counter_step`: over any
batch, the final counter equals `(hq % target)` and the publisher is
invoked exactly `(hq / target)` times, where `hq` counts the high-quality
outcomes; concretely, with `high_quality_target = 3` and four high-quality
articles the batch invokes the publisher exactly once and leaves the
counter at 1. -/
theorem C9_trigger_on_count :
    (∀ (target : Nat) (qs : List Bool) (c p : Nat), 0 < target → c < target →
        counter_run target (c, p) qs
          = ((c + qs.count true) % target, p + (c + qs.count true) / target)) ∧
    (∀ (llm : Article → Option LlmAnalysis) (items : List Article) (st : BatchState),
        ∃ qs : List Bool,
          (items.foldl (batch_item_step llm) st).quality_log
            = st.quality_log ++ qs ∧
          (items.foldl (batch_item_step llm) st).comp.high_quality_target
            = st.comp.high_quality_target ∧
          ((items.foldl (batch_item_step llm) st).comp.high_quality_count,
            (items.foldl (batch_item_step llm) st).publish_runs)
            = counter_run st.comp.high_quality_target
                (st.comp.high_quality_count, st.publish_runs) qs) ∧
    ((process_category_batch c9_db [] "ML"
        { quality_threshold := mkRat 3 5, high_quality_target := 3
          high_quality_count := 0 }
        { processed := 0, high_quality := 0, filtered := 0 } 5 c9_llm).publish_runs
      = 1 ∧
     (process_category_batch c9_db [] "ML"
        { quality_threshold := mkRat 3 5, high_quality_target := 3
          high_quality_count := 0 }
        { processed := 0, high_quality := 0, filtered := 0 } 5 c9_llm).comp.high_quality_count
      = 1) := by
  exact ⟨counter_run_law, batch_fold_counter, by decide⟩

/-- Low-score pending article for the C9 counterexample. -/
def c9x_article : Article :=
  { id := "x1", category := "ML", published := 1, crawled := 1
    processing_status := Status.pending, llm_analysis := none
    published_to_feed := none }

/-- Oracle returning a below-threshold score with no filter reason. -/
def c9x_llm (_ : Article) : Option LlmAnalysis :=
  some { relevance_score := mkRat 1 2, filtered_reason := none }

/-- C9 counterexample: with `high_quality_target = 1`, an article that
transitions into `processed` with a below-threshold score does not
increment the counter — the publisher is never invoked, although the claim
("each transition into processed increments the counter") would make this
first `processed` article reach the target and trigger a publish. -/
theorem C9_counterexample :
    (get_item ((process_category_batch [c9x_article] [] "ML"
      { quality_threshold := mkRat 3 5, high_quality_target := 1
        high_quality_count := 0 }
      { processed := 0, high_quality := 0, filtered := 0 } 5 c9x_llm).db)
      "x1").map (fun a => a.processing_status) = some Status.processed ∧
    (process_category_batch [c9x_article] [] "ML"
      { quality_threshold := mkRat 3 5, high_quality_target := 1
        high_quality_count := 0 }
      { processed := 0, high_quality := 0, filtered := 0 } 5 c9x_llm).publish_runs
      = 0 ∧
    (process_category_batch [c9x_article] [] "ML"
      { quality_threshold := mkRat 3 5, high_quality_target := 1
        high_quality_count := 0 }
      { processed := 0, high_quality := 0, filtered := 0 } 5 c9x_llm).comp.high_quality_count
      = 0 := by decide

/-- Witness for C9: the counter law applied to target 3 and three
high-quality outcomes — the third triggers exactly one publish and resets
the counter to zero. -/
theorem C9_trigger_on_count_witness :
    counter_run 3 (0, 0) [true, true, true] = (0, 1) := by
  rw [C9_trigger_on_count.1 3 [true, true, true] 0 0 (by decide) (by decide)]
  decide

/-! ## C6 — JSON extraction -/

/-- Brace depth contributed by a character string: opening braces minus
closing braces. -/
def brace_delta (s : List Char) : Int :=
  (s.count lbrace : Int) - (s.count rbrace : Int)

/-- The scanned region of the extractor: the stripped content from its
first opening brace onward. -/
def json_tail (content : List Char) : List Char :=
  (stripChars content).dropWhile (fun c => c ≠ lbrace)

theorem lbrace_ne_rbrace : lbrace ≠ rbrace := by decide

theorem brace_delta_nil : brace_delta [] = 0 := rfl

theorem brace_delta_cons (c : Char) (s : List Char) :
    brace_delta (c :: s)
      = (if c = lbrace then 1 else if c = rbrace then (-1 : Int) else 0)
        + brace_delta s := by
  by_cases h1 : c = lbrace
  · subst h1
    simp [brace_delta, List.count_cons, lbrace_ne_rbrace, Ne.symm lbrace_ne_rbrace]
    ring
  · by_cases h2 : c = rbrace
    · subst h2
      simp [brace_delta, List.count_cons, h1, lbrace_ne_rbrace,
        Ne.symm lbrace_ne_rbrace]
      ring
    · simp [brace_delta, List.count_cons, h1, h2, Ne.symm h1, Ne.symm h2]

theorem brace_delta_append (s t : List Char) :
    brace_delta (s ++ t) = brace_delta s + brace_delta t := by
  simp [brace_delta, List.count_append]
  ring

theorem brace_delta_take_succ (cs : List Char) (j : Nat) (hj : j < cs.length) :
    brace_delta (cs.take (j + 1))
      = brace_delta (cs.take j)
        + (if cs[j] = lbrace then 1 else if cs[j] = rbrace then (-1 : Int) else 0) := by
  rw [List.take_succ, brace_delta_append, List.getElem?_eq_getElem hj]
  rw [show (some cs[j]).toList = [cs[j]] from rfl, brace_delta_cons, brace_delta_nil]
  ring

/-- Soundness of the brace-counting loop: a successful scan returns the
accumulator extended by the shortest prefix that ends at a closing brace
bringing the running count to zero. -/
theorem brace_scan_some (cs : List Char) (k : Int) (acc out : List Char)
    (h : brace_scan cs k acc = some out) :
    ∃ n, 0 < n ∧ n ≤ cs.length ∧ out = acc ++ cs.take n ∧
      cs[n - 1]? = some rbrace ∧ k + brace_delta (cs.take n) = 0 ∧
      ∀ m, 0 < m → m < n →
        ¬(cs[m - 1]? = some rbrace ∧ k + brace_delta (cs.take m) = 0) := by
  induction cs generalizing k acc out with
  | nil => cases h
  | cons c rest ih =>
    simp only [brace_scan] at h
    by_cases hcl : c = lbrace
    · rw [if_pos hcl] at h
      obtain ⟨n', hn0, hnl, hout, hidx, hdelta, hmin⟩ := ih (k + 1) (acc ++ [c]) out h
      obtain ⟨m, rfl⟩ : ∃ m, n' = m + 1 := ⟨n' - 1, by omega⟩
      refine ⟨m + 2, by omega, by simp; omega, ?_, ?_, ?_, ?_⟩
      · simp [hout, List.take_succ_cons]
      · rw [show m + 2 - 1 = m + 1 by omega, List.getElem?_cons_succ]
        simpa using hidx
      · rw [List.take_succ_cons, brace_delta_cons, if_pos hcl]
        omega
      · intro m' hm0 hmlt hcontra
        rcases Nat.eq_zero_or_pos (m' - 1) with h0 | hpos
        · have hm1 : m' = 1 := by omega
          rw [hm1] at hcontra
          simp only [Nat.sub_self, List.getElem?_cons_zero, Option.some.injEq] at hcontra
          exact lbrace_ne_rbrace (hcl ▸ hcontra.1)
        · obtain ⟨m'', rfl⟩ : ∃ m'', m' = m'' + 2 := ⟨m' - 2, by omega⟩
          refine hmin (m'' + 1) (by omega) (by omega) ⟨?_, ?_⟩
          · have := hcontra.1
            rw [show m'' + 2 - 1 = m'' + 1 by omega, List.getElem?_cons_succ] at this
            simpa using this
          · have := hcontra.2
            rw [List.take_succ_cons, brace_delta_cons, if_pos hcl] at this
            omega
    · rw [if_neg hcl] at h
      by_cases hcr : c = rbrace
      · rw [if_pos hcr] at h
        by_cases hk : k - 1 = 0
        · rw [if_pos hk] at h
          refine ⟨1, by omega, by simp, ?_, ?_, ?_, ?_⟩
          · rw [List.take_one]
            simpa using h.symm
          · simpa using hcr
          · rw [List.take_succ_cons, List.take_zero, brace_delta_cons, if_neg hcl,
              if_pos hcr, brace_delta_nil]
            omega
          · intro m' hm0 hmlt
            omega
        · rw [if_neg hk] at h
          obtain ⟨n', hn0, hnl, hout, hidx, hdelta, hmin⟩ := ih (k - 1) (acc ++ [c]) out h
          obtain ⟨m, rfl⟩ : ∃ m, n' = m + 1 := ⟨n' - 1, by omega⟩
          refine ⟨m + 2, by omega, by simp; omega, ?_, ?_, ?_, ?_⟩
          · simp [hout, List.take_succ_cons]
          · rw [show m + 2 - 1 = m + 1 by omega, List.getElem?_cons_succ]
            simpa using hidx
          · rw [List.take_succ_cons, brace_delta_cons, if_neg hcl, if_pos hcr]
            omega
          · intro m' hm0 hmlt hcontra
            rcases Nat.eq_zero_or_pos (m' - 1) with h0 | hpos
            · have hm1 : m' = 1 := by omega
              rw [hm1] at hcontra
              have := hcontra.2
              rw [List.take_succ_cons, List.take_zero, brace_delta_cons, if_neg hcl,
                if_pos hcr, brace_delta_nil] at this
              omega
            · obtain ⟨m'', rfl⟩ : ∃ m'', m' = m'' + 2 := ⟨m' - 2, by omega⟩
              refine hmin (m'' + 1) (by omega) (by omega) ⟨?_, ?_⟩
              · have := hcontra.1
                rw [show m'' + 2 - 1 = m'' + 1 by omega,
                  List.getElem?_cons_succ] at this
                simpa using this
              · have := hcontra.2
                rw [List.take_succ_cons, brace_delta_cons, if_neg hcl,
                  if_pos hcr] at this
                omega
      · rw [if_neg hcr] at h
        obtain ⟨n', hn0, hnl, hout, hidx, hdelta, hmin⟩ := ih k (acc ++ [c]) out h
        obtain ⟨m, rfl⟩ : ∃ m, n' = m + 1 := ⟨n' - 1, by omega⟩
        refine ⟨m + 2, by omega, by simp; omega, ?_, ?_, ?_, ?_⟩
        · simp [hout, List.take_succ_cons]
        · rw [show m + 2 - 1 = m + 1 by omega, List.getElem?_cons_succ]
          simpa using hidx
        · rw [List.take_succ_cons, brace_delta_cons, if_neg hcl, if_neg hcr]
          omega
        · intro m' hm0 hmlt hcontra
          rcases Nat.eq_zero_or_pos (m' - 1) with h0 | hpos
          · have hm1 : m' = 1 := by omega
            rw [hm1] at hcontra
            simp only [Nat.sub_self, List.getElem?_cons_zero, Option.some.injEq] at hcontra
            exact hcr hcontra.1
          · obtain ⟨m'', rfl⟩ : ∃ m'', m' = m'' + 2 := ⟨m' - 2, by omega⟩
            refine hmin (m'' + 1) (by omega) (by omega) ⟨?_, ?_⟩
            · have := hcontra.1
              rw [show m'' + 2 - 1 = m'' + 1 by omega,
                List.getElem?_cons_succ] at this
              simpa using this
            · have := hcontra.2
              rw [List.take_succ_cons, brace_delta_cons, if_neg hcl,
                if_neg hcr] at this
              omega

/-- Failure of the brace-counting loop: a `none` result means no prefix
ends at a closing brace that brings the running count to zero. -/
theorem brace_scan_none (cs : List Char) (k : Int) (acc : List Char)
    (h : brace_scan cs k acc = none) :
    ∀ n, 0 < n → n ≤ cs.length →
      ¬(cs[n - 1]? = some rbrace ∧ k + brace_delta (cs.take n) = 0) := by
  induction cs generalizing k acc with
  | nil => intro n hn0 hnl; simp at hnl; omega
  | cons c rest ih =>
    simp only [brace_scan] at h
    intro n hn0 hnl hcontra
    by_cases hcl : c = lbrace
    · rw [if_pos hcl] at h
      rcases Nat.eq_zero_or_pos (n - 1) with h0 | hpos
      · have hn1 : n = 1 := by omega
        rw [hn1] at hcontra
        simp only [Nat.sub_self, List.getElem?_cons_zero, Option.some.injEq] at hcontra
        exact lbrace_ne_rbrace (hcl ▸ hcontra.1)
      · obtain ⟨m, rfl⟩ : ∃ m, n = m + 2 := ⟨n - 2, by omega⟩
        refine ih (k + 1) (acc ++ [c]) h (m + 1) (by omega) (by simp at hnl ⊢; omega)
          ⟨?_, ?_⟩
        · have := hcontra.1
          rw [show m + 2 - 1 = m + 1 by omega, List.getElem?_cons_succ] at this
          simpa using this
        · have := hcontra.2
          rw [List.take_succ_cons, brace_delta_cons, if_pos hcl] at this
          omega
    · rw [if_neg hcl] at h
      by_cases hcr : c = rbrace
      · rw [if_pos hcr] at h
        by_cases hk : k - 1 = 0
        · rw [if_pos hk] at h
          cases h
        · rw [if_neg hk] at h
          rcases Nat.eq_zero_or_pos (n - 1) with h0 | hpos
          · have hn1 : n = 1 := by omega
            rw [hn1] at hcontra
            have := hcontra.2
            rw [List.take_succ_cons, List.take_zero, brace_delta_cons, if_neg hcl,
              if_pos hcr, brace_delta_nil] at this
            omega
          · obtain ⟨m, rfl⟩ : ∃ m, n = m + 2 := ⟨n - 2, by omega⟩
            refine ih (k - 1) (acc ++ [c]) h (m + 1) (by omega)
              (by simp at hnl ⊢; omega) ⟨?_, ?_⟩
            · have := hcontra.1
              rw [show m + 2 - 1 = m + 1 by omega, List.getElem?_cons_succ] at this
              simpa using this
            · have := hcontra.2
              rw [List.take_succ_cons, brace_delta_cons, if_neg hcl,
                if_pos hcr] at this
              omega
      · rw [if_neg hcr] at h
        rcases Nat.eq_zero_or_pos (n - 1) with h0 | hpos
        · have hn1 : n = 1 := by omega
          rw [hn1] at hcontra
          simp only [Nat.sub_self, List.getElem?_cons_zero, Option.some.injEq] at hcontra
          exact hcr hcontra.1
        · obtain ⟨m, rfl⟩ : ∃ m, n = m + 2 := ⟨n - 2, by omega⟩
          refine ih k (acc ++ [c]) h (m + 1) (by omega) (by simp at hnl ⊢; omega)
            ⟨?_, ?_⟩
          · have := hcontra.1
            rw [show m + 2 - 1 = m + 1 by omega, List.getElem?_cons_succ] at this
            simpa using this
          · have := hcontra.2
            rw [List.take_succ_cons, brace_delta_cons, if_neg hcl,
              if_neg hcr] at this
            omega

/-- While the depth has not yet returned to zero, it stays positive: the
depth starts at 1 on the opening brace and moves by at most one per
character, so it cannot skip over zero. -/
theorem delta_pos (cs : List Char) (hhead : cs[0]? = some lbrace) (n : Nat)
    (hnl : n ≤ cs.length)
    (hmin : ∀ m, 0 < m → m < n → brace_delta (cs.take m) ≠ 0) :
    ∀ j, j < n → 0 < j → 0 < brace_delta (cs.take j) := by
  intro j
  induction j with
  | zero => intro _ h; omega
  | succ i ihi =>
    intro hjn hj0
    rcases Nat.eq_zero_or_pos i with h0 | hi0
    · subst h0
      cases cs with
      | nil => cases hhead
      | cons c rest =>
        have hc : c = lbrace := by
          simpa using hhead
        rw [List.take_succ_cons, List.take_zero, brace_delta_cons, if_pos hc,
          brace_delta_nil]
        omega
    · have hd := ihi (by omega) hi0
      have hne := hmin (i + 1) (by omega) hjn
      have hstep := brace_delta_take_succ cs i (by omega)
      by_cases h1 : cs[i] = lbrace
      · rw [hstep, if_pos h1]
        omega
      · by_cases h2 : cs[i] = rbrace
        · rw [hstep, if_neg h1, if_pos h2]
          rw [hstep, if_neg h1, if_pos h2] at hne
          omega
        · rw [hstep, if_neg h1, if_neg h2]
          rw [hstep, if_neg h1, if_neg h2] at hne
          omega

/-- When the depth first returns to zero, it does so on a closing brace. -/
theorem first_zero_is_rbrace (cs : List Char) (hhead : cs[0]? = some lbrace)
    (n : Nat) (hn0 : 0 < n) (hnl : n ≤ cs.length)
    (hz : brace_delta (cs.take n) = 0)
    (hmin : ∀ m, 0 < m → m < n → brace_delta (cs.take m) ≠ 0) :
    cs[n - 1]? = some rbrace := by
  rcases Nat.eq_zero_or_pos (n - 1) with h0 | hpos
  · exfalso
    have hn1 : n = 1 := by omega
    subst hn1
    cases cs with
    | nil => cases hhead
    | cons c rest =>
      have hc : c = lbrace := by simpa using hhead
      rw [List.take_succ_cons, List.take_zero, brace_delta_cons, if_pos hc,
        brace_delta_nil] at hz
      omega
  · obtain ⟨i, rfl⟩ : ∃ i, n = i + 1 := ⟨n - 1, by omega⟩
    have hi0 : 0 < i := by omega
    have hd := delta_pos cs hhead (i + 1) hnl hmin i (by omega) hi0
    have hstep := brace_delta_take_succ cs i (by omega)
    rw [hstep] at hz
    by_cases h1 : cs[i] = lbrace
    · rw [if_pos h1] at hz
      omega
    · by_cases h2 : cs[i] = rbrace
      · rw [Nat.add_sub_cancel, List.getElem?_eq_getElem (by omega : i < cs.length), h2]
      · rw [if_neg h1, if_neg h2] at hz
        omega

/-- A non-empty `dropWhile` result starts with a character failing the
predicate; specialized to the extractor's search for the first opening
brace. -/
theorem dropWhile_head_lbrace (l : List Char)
    (h : l.dropWhile (fun c => c ≠ lbrace) ≠ []) :
    (l.dropWhile (fun c => c ≠ lbrace))[0]? = some lbrace := by
  induction l with
  | nil => exact absurd rfl h
  | cons a l ih =>
    rw [List.dropWhile_cons]
    by_cases ha : a = lbrace
    · rw [if_neg (by simp [ha])]
      simp [ha]
    · rw [if_pos (by simp [ha])]
      have h' : l.dropWhile (fun c => c ≠ lbrace) ≠ [] := by
        intro hnil
        apply h
        rw [List.dropWhile_cons, if_pos (by simp [ha])]
        exact hnil
      exact ih h'

theorem mem_stripChars {x : Char} {l : List Char} (h : x ∈ stripChars l) : x ∈ l := by
  unfold stripChars at h
  have h1 := List.mem_reverse.mp h
  have h2 := (List.dropWhile_sublist _).subset h1
  have h3 := List.mem_reverse.mp h2
  exact (List.dropWhile_sublist _).subset h3

/-- Unfolding of the extractor in terms of the scanned region. -/
theorem extract_json_eq (content : List Char) :
    extract_json_from_content content
      = (if (json_tail content).isEmpty then Except.error ExtractError.noJsonFound
         else
           match brace_scan (json_tail content) 0 [] with
           | none => Except.error ExtractError.unbalancedBraces
           | some extracted =>
             if (stripChars extracted).isEmpty then
               Except.error ExtractError.emptyJsonExtracted
             else Except.ok extracted) := rfl

/-- First JSON example string of the spec, braces written by code point. -/
def c6_ex1 : List Char :=
  "Some text \x7b\"a\": 1, \"nested\": \x7b\"b\": [1,2,3]\x7d\x7d trailing text".data

/-- Expected extraction result for the first example. -/
def c6_out1 : List Char :=
  "\x7b\"a\": 1, \"nested\": \x7b\"b\": [1,2,3]\x7d\x7d".data

/-- Unbalanced example string of the spec. -/
def c6_ex3 : List Char := "\x7b\"a\": 1".data

/-- C6: the extractor fails with `NoJsonFound` when the input has no
opening brace; a successful extraction returns exactly the prefix of the
stripped content, from its first opening brace, ending where the
brace-depth counter (no string-literal awareness) first returns to zero;
when there is an opening brace but the depth never returns to zero it
fails with `UnbalancedBraces`; and the three concrete examples of the spec
behave as stated. -/
theorem C6_json_extraction :
    (∀ content : List Char, lbrace ∉ content →
        extract_json_from_content content = Except.error ExtractError.noJsonFound) ∧
    (∀ (content s : List Char), extract_json_from_content content = Except.ok s →
        ∃ n, 0 < n ∧ n ≤ (json_tail content).length ∧
          s = (json_tail content).take n ∧
          brace_delta s = 0 ∧
          ∀ m, 0 < m → m < n → brace_delta ((json_tail content).take m) ≠ 0) ∧
    (∀ content : List Char, json_tail content ≠ [] →
        (∀ n, 0 < n → n ≤ (json_tail content).length →
          brace_delta ((json_tail content).take n) ≠ 0) →
        extract_json_from_content content
          = Except.error ExtractError.unbalancedBraces) ∧
    extract_json_from_content c6_ex1 = Except.ok c6_out1 ∧
    extract_json_from_content "no braces here".data
      = Except.error ExtractError.noJsonFound ∧
    extract_json_from_content c6_ex3 = Except.error ExtractError.unbalancedBraces := by
  refine ⟨fun content hnb => ?_, fun content s h => ?_, fun content ht hz => ?_,
    by rfl, by rfl, by rfl⟩
  · have htail : json_tail content = [] := by
      rw [show json_tail content
        = (stripChars content).dropWhile (fun c => c ≠ lbrace) from rfl,
        List.dropWhile_eq_nil_iff]
      intro x hx
      have hxl : x ≠ lbrace := fun hx' => hnb (hx' ▸ mem_stripChars hx)
      simp [hxl]
    rw [extract_json_eq, htail]
    rfl
  · rw [extract_json_eq] at h
    by_cases hte : (json_tail content).isEmpty = true
    · rw [if_pos hte] at h
      cases h
    · rw [if_neg hte] at h
      cases hscan : brace_scan (json_tail content) 0 [] with
      | none =>
        rw [hscan] at h
        cases h
      | some ext =>
        rw [hscan] at h
        have h2 : (if (stripChars ext).isEmpty = true then
            Except.error ExtractError.emptyJsonExtracted
          else Except.ok ext) = Except.ok s := h
        by_cases hse : (stripChars ext).isEmpty = true
        · rw [if_pos hse] at h2
          cases h2
        · rw [if_neg hse] at h2
          have hs : ext = s := Except.ok.inj h2
          subst hs
          obtain ⟨n, hn0, hnl, hout, hidx2, hdelta, hmin⟩ :=
            brace_scan_some _ 0 [] ext hscan
          have htne : json_tail content ≠ [] := by
            intro hnil
            rw [hnil] at hte
            exact hte rfl
          have hhead : (json_tail content)[0]? = some lbrace :=
            dropWhile_head_lbrace _ htne
          refine ⟨n, hn0, hnl, by simpa using hout, ?_, ?_⟩
          · rw [show ext = (json_tail content).take n by simpa using hout]
            omega
          · intro m hm0 hmn
            by_contra hzero
            have hP : ∃ m', (0 < m' ∧ m' < n ∧
                brace_delta ((json_tail content).take m') = 0) := ⟨m, hm0, hmn, hzero⟩
            obtain ⟨hm00, hm0n, hm0z⟩ := Nat.find_spec hP
            have hm0min : ∀ m', 0 < m' → m' < Nat.find hP →
                brace_delta ((json_tail content).take m') ≠ 0 := by
              intro m' h1 h2 h3
              exact Nat.find_min hP h2 ⟨h1, by omega, h3⟩
            have hrb := first_zero_is_rbrace (json_tail content) hhead
              (Nat.find hP) hm00 (by omega) hm0z hm0min
            exact hmin (Nat.find hP) hm00 hm0n ⟨hrb, by simpa using hm0z⟩
  · have hte : (json_tail content).isEmpty = false := by
      rw [List.isEmpty_eq_false]
      exact ht
    rw [extract_json_eq, if_neg (by rw [hte]; exact Bool.false_ne_true)]
    cases hscan : brace_scan (json_tail content) 0 [] with
    | none => rfl
    | some ext =>
      exfalso
      obtain ⟨n, hn0, hnl, hout2, hidx2, hdelta, hmin2⟩ :=
        brace_scan_some _ 0 [] ext hscan
      exact hz n hn0 hnl (by simpa using hdelta)

/-- Witness for C6: the no-brace failure mode applied to a concrete input. -/
theorem C6_json_extraction_witness :
    extract_json_from_content "xyz".data = Except.error ExtractError.noJsonFound :=
  C6_json_extraction.1 "xyz".data (by decide)

/-! ## C7 — round-robin fairness and fixed-point termination -/

/-- Number of pending articles in the store: the scheduler's termination
measure. -/
def pending_count (db : DB) : Nat :=
  (db.filter (fun a => a.processing_status == Status.pending)).length

theorem batch_item_step_processed_le (llm : Article → Option LlmAnalysis)
    (st : BatchState) (b : Article) :
    (batch_item_step llm st b).articles_processed ≤ st.articles_processed + 1 := by
  cases hllm : llm b with
  | none => simp [batch_item_step, hllm]
  | some analysis =>
    cases hp : process_single_item b (get_item st.db b.id) analysis
        st.comp.quality_threshold with
    | none => simp [batch_item_step, hllm, hp]
    | some qr =>
      by_cases hq : qr.2 = 1
      · by_cases htr : st.comp.high_quality_target ≤ st.comp.high_quality_count + 1 <;>
          simp [batch_item_step, hllm, hp, hq, htr]
      · simp [batch_item_step, hllm, hp, hq]

theorem batch_fold_processed_le (llm : Article → Option LlmAnalysis)
    (items : List Article) (st : BatchState) :
    (items.foldl (batch_item_step llm) st).articles_processed
      ≤ st.articles_processed + items.length := by
  induction items generalizing st with
  | nil => simp
  | cons b rest ih =>
    calc ((b :: rest).foldl (batch_item_step llm) st).articles_processed
        ≤ (batch_item_step llm st b).articles_processed + rest.length := ih _
      _ ≤ st.articles_processed + 1 + rest.length :=
          Nat.add_le_add_right (batch_item_step_processed_le llm st b) _
      _ = st.articles_processed + (b :: rest).length := by simp; omega

theorem process_category_batch_le (db : DB) (feed : FeedDoc) (cat : String)
    (comp : BatchComponents) (stats : CategoryStats) (bs : Nat)
    (llm : Article → Option LlmAnalysis) :
    (process_category_batch db feed cat comp stats bs llm).articles_processed ≤ bs := by
  have h := batch_fold_processed_le llm
    (get_items_by_status db Status.pending (some cat) (some bs))
    { db := db, feed := feed, comp := comp, stats := stats
      articles_processed := 0, publish_runs := 0, quality_log := [] }
  have hlen : (get_items_by_status db Status.pending (some cat) (some bs)).length
      ≤ bs := by
    rw [get_items_by_status]
    simp only [List.length_take]
    exact min_le_left _ _
  calc (process_category_batch db feed cat comp stats bs llm).articles_processed
      ≤ 0 + (get_items_by_status db Status.pending (some cat) (some bs)).length := h
    _ ≤ bs := by omega

theorem rr_round_le (categories : List String) (llm : Article → Option LlmAnalysis)
    (bs : Nat) (st : RRState) :
    (rr_round categories llm bs st).2 ≤ categories.length * bs := by
  suffices h : ∀ (cats : List String) (acc : RRState × Nat),
      (cats.foldl (rr_category_step llm bs) acc).2 ≤ acc.2 + cats.length * bs by
    have := h categories (st, 0)
    simpa [rr_round] using this
  intro cats
  induction cats with
  | nil => intro acc; simp
  | cons c rest ih =>
    intro acc
    have hstep : (rr_category_step llm bs acc c).2 ≤ acc.2 + bs := by
      unfold rr_category_step
      cases acc.1.components c with
      | none => simp
      | some comp =>
        simp only []
        exact Nat.add_le_add_left (process_category_batch_le _ _ _ _ _ _ _) _
    calc ((c :: rest).foldl (rr_category_step llm bs) acc).2
        ≤ (rr_category_step llm bs acc c).2 + rest.length * bs := ih _
      _ ≤ acc.2 + bs + rest.length * bs := Nat.add_le_add_right hstep _
      _ = acc.2 + (c :: rest).length * bs := by
          simp [List.length_cons]
          ring

/-- Pointwise congruence for the pending counter: a map that preserves
each record's pending flag preserves the count. -/
theorem pc_congr (db : DB) (h : Article → Article)
    (hp : ∀ a ∈ db, ((h a).processing_status == Status.pending)
      = (a.processing_status == Status.pending)) :
    pending_count (db.map h) = pending_count db := by
  induction db with
  | nil => rfl
  | cons a rest ih =>
    unfold pending_count
    rw [List.map_cons, List.filter_cons, List.filter_cons,
      hp a (List.mem_cons_self a rest)]
    by_cases hpa : (a.processing_status == Status.pending) = true
    · rw [if_pos hpa, if_pos hpa]
      simp only [List.length_cons]
      exact congrArg (· + 1) (ih (fun x hx => hp x (List.mem_cons_of_mem a hx)))
    · rw [if_neg hpa, if_neg hpa]
      exact ih (fun x hx => hp x (List.mem_cons_of_mem a hx))

theorem update_item_id_absent (db : DB) (i : String) (f : Article → Article)
    (h : ∀ x ∈ db, x.id ≠ i) : update_item db i f = db := by
  rw [update_item]
  have hcongr : db.map (fun a => if a.id == i then f a else a) = db.map id :=
    List.map_congr_left (fun x hx => by rw [if_neg (by simp [h x hx])]; rfl)
  rw [hcongr, List.map_id]

/-- Updating the unique pending record at `i` to a non-pending status
removes exactly one article from the pending count. -/
theorem pc_update_decrement (db : DB) (i : String) (f : Article → Article)
    (hnodup : (db.map (fun x => x.id)).Nodup) (a : Article)
    (ha : get_item db i = some a) (hap : a.processing_status = Status.pending)
    (hf : ∀ x, (f x).processing_status ≠ Status.pending) :
    pending_count (update_item db i f) + 1 = pending_count db := by
  induction db with
  | nil => cases ha
  | cons b rest ih =>
    by_cases hb : (b.id == i) = true
    · have hab : a = b := by
        have hfind : List.find? (fun x : Article => x.id == i) (b :: rest) = some b :=
          List.find?_cons_of_pos rest (show (fun x : Article => x.id == i) b = true from hb)
        rw [get_item, hfind] at ha
        exact (Option.some.inj ha).symm
      have hbid : b.id = i := by simpa using hb
      have habs : ∀ x ∈ rest, x.id ≠ i := by
        intro x hx he
        have hbn : b.id ∉ rest.map (fun x => x.id) := (List.nodup_cons.mp hnodup).1
        exact hbn (hbid ▸ he ▸ List.mem_map_of_mem (fun x => x.id) hx)
      rw [update_item, List.map_cons, if_pos hb,
        show List.map (fun a => if (a.id == i) = true then f a else a) rest
          = update_item rest i f from rfl,
        update_item_id_absent rest i f habs]
      unfold pending_count
      rw [List.filter_cons, List.filter_cons,
        if_neg (by simp [hf b]),
        if_pos (by simp [← hab, hap])]
      simp
    · have ha' : get_item rest i = some a := by
        have hfind : List.find? (fun x : Article => x.id == i) (b :: rest)
            = List.find? (fun x : Article => x.id == i) rest :=
          List.find?_cons_of_neg rest
            (show ¬(fun x : Article => x.id == i) b = true from by
              simp at hb ⊢; exact hb)
        rw [get_item, hfind] at ha
        exact ha
      have hnr : (rest.map (fun x => x.id)).Nodup := (List.nodup_cons.mp hnodup).2
      have := ih hnr ha'
      rw [update_item, List.map_cons, if_neg hb,
        show List.map (fun a => if (a.id == i) = true then f a else a) rest
          = update_item rest i f from rfl]
      unfold pending_count at *
      rw [List.filter_cons, List.filter_cons]
      by_cases hpb : (b.processing_status == Status.pending) = true
      · rw [if_pos hpb, if_pos hpb]
        simp only [List.length_cons]
        omega
      · rw [if_neg hpb, if_neg hpb]
        omega

/-- A publisher run never changes the pending count: it only moves
non-pending records to `published`. -/
theorem pc_publish_fold (cands : List Article) (st : PublishState)
    (hok : ∀ c ∈ cands, ∀ x ∈ st.db, x.id = c.id →
      x.processing_status ≠ Status.pending) :
    pending_count ((cands.foldl publish_step st).db) = pending_count st.db := by
  induction cands generalizing st with
  | nil => rfl
  | cons c rest ih =>
    rw [List.foldl_cons]
    have hstep : pending_count ((publish_step st c).db) = pending_count st.db := by
      rcases publish_step_db st c with heq | heq
      · rw [heq]
      · rw [heq, update_item_status, update_item]
        refine pc_congr st.db _ (fun x hx => ?_)
        by_cases hxc : (x.id == c.id) = true
        · rw [if_pos hxc]
          have hxp := hok c (List.mem_cons_self c rest) x hx (by simpa using hxc)
          rw [set_status_status]
          simp [hxp]
        · rw [if_neg hxc]
    have hnext : ∀ c' ∈ rest, ∀ x ∈ (publish_step st c).db, x.id = c'.id →
        x.processing_status ≠ Status.pending := by
      intro c' hc' x hx hxe
      rcases publish_step_db st c with heq | heq
      · exact hok c' (List.mem_cons_of_mem c hc') x (heq ▸ hx) hxe
      · rw [heq, update_item_status, update_item] at hx
        rcases List.mem_map.mp hx with ⟨y, hy, hxy⟩
        by_cases hyc : (y.id == c.id) = true
        · rw [if_pos hyc] at hxy
          rw [← hxy, set_status_status]
          simp
        · rw [if_neg hyc] at hxy
          rw [← hxy]
          exact hok c' (List.mem_cons_of_mem c hc') y hy (by rw [hxy]; exact hxe)
    rw [ih _ hnext, hstep]

/-- The publisher run keeps the pending count of a duplicate-free store. -/
theorem pc_update_feed_main (db : DB) (feed : FeedDoc)
    (hnodup : (db.map (fun x => x.id)).Nodup) :
    pending_count ((update_feed_main db feed).db) = pending_count db := by
  refine pc_publish_fold (update_feed_candidates db)
    { db := db, feed := feed, articles_added := 0 } (fun c hc x hx hxe => ?_)
  have hm := mem_get_filtered_items
    (show c ∈ get_filtered_items db (mkRat 3 5) 100 none from hc)
  have hxc : x = c := List.inj_on_of_nodup_map hnodup hx hm.1 hxe
  subst hxc
  have := hm.2
  unfold matches_filtered_query at this
  intro hpend
  rw [hpend] at this
  simp at this

theorem batch_item_step_map_id (llm : Article → Option LlmAnalysis)
    (st : BatchState) (b : Article) :
    ((batch_item_step llm st b).db).map (fun x => x.id)
      = st.db.map (fun x => x.id) := by
  cases hllm : llm b with
  | none => simp [batch_item_step, hllm]
  | some analysis =>
    cases hp : process_single_item b (get_item st.db b.id) analysis
        st.comp.quality_threshold with
    | none => simp [batch_item_step, hllm, hp]
    | some qr =>
      have h2 : (update_item st.db b.id (analysis_update qr)).map (fun x => x.id)
          = st.db.map (fun x => x.id) :=
        update_item_map_id st.db b.id _ (fun x => rfl)
      have h4 : ((update_feed_main (update_item st.db b.id (analysis_update qr))
          st.feed).db).map (fun x => x.id) = st.db.map (fun x => x.id) := by
        rw [show (update_feed_main (update_item st.db b.id (analysis_update qr))
            st.feed)
          = ((update_feed_candidates (update_item st.db b.id (analysis_update qr))).foldl
            publish_step
            { db := update_item st.db b.id (analysis_update qr), feed := st.feed
              articles_added := 0 }) from rfl]
        rw [publish_fold_map_id]
        exact h2
      by_cases hq : qr.2 = 1
      · by_cases htr : st.comp.high_quality_target ≤ st.comp.high_quality_count + 1
        · simpa [batch_item_step, hllm, hp, hq, htr] using h4
        · simpa [batch_item_step, hllm, hp, hq, htr] using h2
      · simpa [batch_item_step, hllm, hp, hq] using h2

theorem batch_item_step_pc (llm : Article → Option LlmAnalysis) (st : BatchState)
    (b : Article) (hb : get_item st.db b.id = some b)
    (hbp : b.processing_status = Status.pending)
    (hnodup : (st.db.map (fun x => x.id)).Nodup) :
    pending_count ((batch_item_step llm st b).db)
      + (batch_item_step llm st b).articles_processed
      = pending_count st.db + st.articles_processed := by
  cases hllm : llm b with
  | none => simp [batch_item_step, hllm]
  | some analysis =>
    cases hp : process_single_item b (get_item st.db b.id) analysis
        st.comp.quality_threshold with
    | none => simp [batch_item_step, hllm, hp]
    | some qr =>
      have hdec : pending_count (update_item st.db b.id (analysis_update qr)) + 1
          = pending_count st.db :=
        pc_update_decrement st.db b.id _ hnodup b hb hbp
          (fun x => process_single_item_status_ne_pending hp)
      have h2 : (update_item st.db b.id (analysis_update qr)).map (fun x => x.id)
          = st.db.map (fun x => x.id) :=
        update_item_map_id st.db b.id _ (fun x => rfl)
      have hnodup1 : ((update_item st.db b.id (analysis_update qr)).map
          (fun x => x.id)).Nodup := by
        rw [h2]
        exact hnodup
      have hpub : pending_count ((update_feed_main
          (update_item st.db b.id (analysis_update qr)) st.feed).db)
          = pending_count (update_item st.db b.id (analysis_update qr)) :=
        pc_update_feed_main _ st.feed hnodup1
      by_cases hq : qr.2 = 1
      · by_cases htr : st.comp.high_quality_target ≤ st.comp.high_quality_count + 1
        · simp only [batch_item_step, hllm, hp, hq, if_true, htr]
          rw [hpub]
          omega
        · simp only [batch_item_step, hllm, hp, hq, if_true]
          simp only [if_neg htr]
          omega
      · simp only [batch_item_step, hllm, hp, if_neg hq]
        omega

theorem batch_fold_pc (llm : Article → Option LlmAnalysis) (items : List Article)
    (st : BatchState) (hnodup : (st.db.map (fun x => x.id)).Nodup)
    (hitems : ∀ b ∈ items, get_item st.db b.id = some b ∧
      b.processing_status = Status.pending)
    (hditems : (items.map (fun x => x.id)).Nodup) :
    pending_count ((items.foldl (batch_item_step llm) st).db)
      + (items.foldl (batch_item_step llm) st).articles_processed
      = pending_count st.db + st.articles_processed := by
  induction items generalizing st with
  | nil => rfl
  | cons b rest ih =>
    have hb0 := hitems b (List.mem_cons_self b rest)
    have hstep := batch_item_step_pc llm st b hb0.1 hb0.2 hnodup
    have hmapid : ((batch_item_step llm st b).db).map (fun x => x.id)
        = st.db.map (fun x => x.id) := batch_item_step_map_id llm st b
    have hnodup' : (((batch_item_step llm st b).db).map (fun x => x.id)).Nodup := by
      rw [hmapid]
      exact hnodup
    have hitems' : ∀ x ∈ rest, get_item ((batch_item_step llm st b).db) x.id = some x ∧
        x.processing_status = Status.pending := by
      intro x hx
      have hx0 := hitems x (List.mem_cons_of_mem b hx)
      have hbne : b.id ≠ x.id := by
        intro he
        have hbn : b.id ∉ rest.map (fun y => y.id) := (List.nodup_cons.mp hditems).1
        exact hbn (he ▸ List.mem_map_of_mem (fun y => y.id) hx)
      have hpr := batch_item_step_preserves llm st b x hx0.2 hx0.1 hnodup
        (fun he => absurd he hbne)
      exact ⟨hpr.1, hx0.2⟩
    have hrest := ih (batch_item_step llm st b) hnodup' hitems'
      (List.nodup_cons.mp hditems).2
    rw [List.foldl_cons]
    omega

theorem process_category_batch_pc (db : DB) (feed : FeedDoc) (cat : String)
    (comp : BatchComponents) (stats : CategoryStats) (bs : Nat)
    (llm : Article → Option LlmAnalysis)
    (hnodup : (db.map (fun x => x.id)).Nodup) :
    pending_count ((process_category_batch db feed cat comp stats bs llm).db)
      + (process_category_batch db feed cat comp stats bs llm).articles_processed
      = pending_count db := by
  have h := batch_fold_pc llm
    (get_items_by_status db Status.pending (some cat) (some bs))
    { db := db, feed := feed, comp := comp, stats := stats
      articles_processed := 0, publish_runs := 0, quality_log := [] }
    hnodup
    (fun b hb => by
      have hm := mem_get_items_by_status hb
      exact ⟨get_item_of_mem_nodup hnodup hm.1, status_of_matches hm.2⟩)
    (get_items_by_status_nodup_ids hnodup Status.pending (some cat) (some bs))
  simpa using h

theorem batch_fold_map_id (llm : Article → Option LlmAnalysis)
    (items : List Article) (st : BatchState) :
    ((items.foldl (batch_item_step llm) st).db).map (fun x => x.id)
      = st.db.map (fun x => x.id) := by
  induction items generalizing st with
  | nil => rfl
  | cons b rest ih =>
    rw [List.foldl_cons, ih, batch_item_step_map_id]

theorem rr_round_pc (cats : List String) (llm : Article → Option LlmAnalysis)
    (bs : Nat) (st : RRState) (hnodup : (st.db.map (fun x => x.id)).Nodup) :
    (pending_count ((rr_round cats llm bs st).1.db) + (rr_round cats llm bs st).2
      = pending_count st.db) ∧
    ((rr_round cats llm bs st).1.db).map (fun x => x.id)
      = st.db.map (fun x => x.id) := by
  suffices h : ∀ (cs : List String) (acc : RRState × Nat),
      (acc.1.db.map (fun x => x.id)).Nodup →
      (pending_count ((cs.foldl (rr_category_step llm bs) acc).1.db)
          + (cs.foldl (rr_category_step llm bs) acc).2
        = pending_count acc.1.db + acc.2) ∧
      ((cs.foldl (rr_category_step llm bs) acc).1.db).map (fun x => x.id)
        = acc.1.db.map (fun x => x.id) by
    have := h cats (st, 0) hnodup
    exact ⟨by have := this.1; simpa [rr_round] using this, by
      have := this.2; simpa [rr_round] using this⟩
  intro cs
  induction cs with
  | nil => intro acc _; exact ⟨rfl, rfl⟩
  | cons c rest ih =>
    intro acc hnd
    have hstep : (pending_count ((rr_category_step llm bs acc c).1.db)
          + (rr_category_step llm bs acc c).2 = pending_count acc.1.db + acc.2) ∧
        ((rr_category_step llm bs acc c).1.db).map (fun x => x.id)
          = acc.1.db.map (fun x => x.id) := by
      unfold rr_category_step
      cases acc.1.components c with
      | none => exact ⟨rfl, rfl⟩
      | some comp =>
        simp only []
        constructor
        · have := process_category_batch_pc acc.1.db acc.1.feed c comp
            (acc.1.stats c) bs llm hnd
          omega
        · exact batch_fold_map_id llm _ _
    have hnd' : ((rr_category_step llm bs acc c).1.db.map (fun x => x.id)).Nodup := by
      rw [hstep.2]
      exact hnd
    have hrest := ih (rr_category_step llm bs acc c) hnd'
    rw [List.foldl_cons]
    exact ⟨by omega, hrest.2.trans hstep.2⟩

/-- One-step unfolding of the scheduling loop. -/
theorem rr_loop_succ (llm : Article → Option LlmAnalysis) (bs : Nat)
    (cats : List String) (fuel : Nat) (st : RRState) :
    rr_loop llm bs cats (fuel + 1) st
      = (if (rr_round cats llm bs st).2 = 0 then (rr_round cats llm bs st).1
         else rr_loop llm bs cats fuel (rr_round cats llm bs st).1) := rfl

/-- With fuel exceeding the pending count, the loop's result no longer
depends on the fuel: the run ends at the fixed point (a round advancing
zero articles), not by fuel exhaustion. -/
theorem rr_loop_fuel_indep (llm : Article → Option LlmAnalysis) (bs : Nat)
    (cats : List String) :
    ∀ (fuel : Nat) (st : RRState), (st.db.map (fun x => x.id)).Nodup →
      pending_count st.db < fuel →
      rr_loop llm bs cats fuel st = rr_loop llm bs cats (fuel + 1) st := by
  intro fuel
  induction fuel with
  | zero => intro st _ h; omega
  | succ f ih =>
    intro st hnodup hfuel
    rw [rr_loop_succ, rr_loop_succ]
    by_cases hz : (rr_round cats llm bs st).2 = 0
    · rw [if_pos hz, if_pos hz]
    · rw [if_neg hz, if_neg hz]
      have hpc := (rr_round_pc cats llm bs st hnodup).1
      have hnodup' : ((rr_round cats llm bs st).1.db.map (fun x => x.id)).Nodup := by
        rw [(rr_round_pc cats llm bs st hnodup).2]
        exact hnodup
      exact ih (rr_round cats llm bs st).1 hnodup' (by omega)

/-- Pending articles of the concrete fairness scenario. -/
def c7_article (cat : String) (n : Nat) : Article :=
  { id := cat ++ toString n, category := cat, published := n, crawled := n
    processing_status := Status.pending, llm_analysis := none
    published_to_feed := none }

/-- Store with 50 pending articles in category A and one in category B. -/
def c7_db : DB := (List.range 50).map (c7_article "A") ++ [c7_article "B" 0]

/-- Components map for the concrete scenario (target high enough that no
publish triggers fire during the round). -/
def c7_components (_ : String) : Option BatchComponents :=
  some { quality_threshold := mkRat 3 5, high_quality_target := 100
         high_quality_count := 0 }

/-- Statistics map for the concrete scenario. -/
def c7_stats (_ : String) : CategoryStats :=
  { processed := 0, high_quality := 0, filtered := 0 }

/-- Initial scheduler state of the concrete scenario. -/
def c7_st : RRState :=
  { db := c7_db, feed := [], components := c7_components, stats := c7_stats }

/-- Oracle returning a uniform high score. -/
def c7_llm (_ : Article) : Option LlmAnalysis :=
  some { relevance_score := mkRat 9 10, filtered_reason := none }

/-- C7: each category batch advances at most `batch_size` articles; a round
grants every category at most one batch, so it advances at most
`categories × batch_size` articles in total; the scheduler stops exactly
when a round advances zero articles (it returns the post-round state then,
and otherwise continues); with fuel above the pending count the run is
fuel-independent — it ends at the fixed point, not by fuel exhaustion; and
in the concrete A(50 pending)/B(1 pending) scenario with batch size 5,
round one advances 6 articles, leaving A with 45 pending and B drained. -/
theorem C7_round_robin :
    (∀ (db : DB) (feed : FeedDoc) (cat : String) (comp : BatchComponents)
        (stats : CategoryStats) (bs : Nat) (llm : Article → Option LlmAnalysis),
        (process_category_batch db feed cat comp stats bs llm).articles_processed
          ≤ bs) ∧
    (∀ (cats : List String) (llm : Article → Option LlmAnalysis) (bs : Nat)
        (st : RRState), (rr_round cats llm bs st).2 ≤ cats.length * bs) ∧
    (∀ (llm : Article → Option LlmAnalysis) (cats : List String) (fuel : Nat)
        (st : RRState),
        ((rr_round cats llm 5 st).2 = 0 →
          process_pending_articles_round_robin llm cats (fuel + 1) st
            = (rr_round cats llm 5 st).1) ∧
        ((rr_round cats llm 5 st).2 ≠ 0 →
          process_pending_articles_round_robin llm cats (fuel + 1) st
            = process_pending_articles_round_robin llm cats fuel
                (rr_round cats llm 5 st).1)) ∧
    (∀ (llm : Article → Option LlmAnalysis) (cats : List String) (fuel : Nat)
        (st : RRState), (st.db.map (fun x => x.id)).Nodup →
        pending_count st.db < fuel →
        process_pending_articles_round_robin llm cats fuel st
          = process_pending_articles_round_robin llm cats (fuel + 1) st) ∧
    ((rr_round ["A", "B"] c7_llm 5 c7_st).2 = 6 ∧
     (get_items_by_status (rr_round ["A", "B"] c7_llm 5 c7_st).1.db Status.pending
       (some "A") none).length = 45 ∧
     (get_items_by_status (rr_round ["A", "B"] c7_llm 5 c7_st).1.db Status.pending
       (some "B") none).length = 0) := by
  refine ⟨process_category_batch_le, rr_round_le, fun llm cats fuel st => ⟨?_, ?_⟩,
    fun llm cats fuel st => rr_loop_fuel_indep llm 5 cats fuel st, by decide⟩
  · intro hz
    rw [show process_pending_articles_round_robin llm cats (fuel + 1) st
      = rr_loop llm 5 cats (fuel + 1) st from rfl, rr_loop_succ, if_pos hz]
  · intro hz
    rw [show process_pending_articles_round_robin llm cats (fuel + 1) st
      = rr_loop llm 5 cats (fuel + 1) st from rfl, rr_loop_succ, if_neg hz]
    rfl

/-- Witness for C7: fuel-independence applied to an empty store. -/
theorem C7_round_robin_witness :
    process_pending_articles_round_robin c7_llm ["A"] 1
        { db := [], feed := [], components := c7_components, stats := c7_stats }
      = process_pending_articles_round_robin c7_llm ["A"] 2
        { db := [], feed := [], components := c7_components, stats := c7_stats } :=
  C7_round_robin.2.2.2.1 c7_llm ["A"] 1
    { db := [], feed := [], components := c7_components, stats := c7_stats }
    (by decide) (by decide)

end Feed
